import Mathlib

/-
Verification of the trie package (CasualSuperman/trie).

The package stores values under string keys in a prefix tree.  The core
implementation is the iterative, array-branching variant:

  * `iter_alt_trie.go` — type `iterTrie` with fields `value interface\x7b\x7d`,
    `validLeaf bool`, `children []iterBranch`, where an `iterBranch` is a
    `(letter byte, branch *iterTrie)` pair, and the five operations
    `Add`, `Get`, `Search`, `Remove`, `Update` built on the inner helpers
    `add`, `get`, `search`, `remove`, `update` and `getChild`.
  * `trie.go` — the same data layout (type `trie`); its `Get` and `Update`
    differ from the iterative variant in ways that matter below, so those are
    embedded separately (`trieGet`, `trieUpdate`).

The embedding is shallow and functional: Go's in-place pointer mutation of a
node reached by an index `i` into `children` becomes `List.set i`, Go's
`append` becomes `++ [·]`, Go's `nil`-able `interface\x7b\x7d` value becomes
`Option V`, a byte becomes a `Nat`, a key (Go `[]byte(key)`) becomes a
`List Nat`.  A Go runtime panic (index out of range) is modelled by an
`Option`-valued result being `none`.
-/

namespace GoTrie

/-- A byte of a key (Go `byte`). -/
abbrev Letter := Nat

/-- A key, as the Go code sees it after `[]byte(key)`. -/
abbrev Key := List Letter

/-- The node type of `iter_alt_trie.go` (struct `iterTrie`) and of `trie.go`
(struct `trie`): a possibly-nil payload, a terminal flag, and a list of
`(letter, child)` branches.  `none` as the payload models Go's `nil`. -/
inductive ITrie (V : Type) : Type where
  | mk (value : Option V) (validLeaf : Bool) (children : List (Letter × ITrie V))

/-- Field `value` of the node struct. -/
def ITrie.value {V : Type} : ITrie V → Option V
  | .mk v _ _ => v

/-- Field `validLeaf` of the node struct. -/
def ITrie.validLeaf {V : Type} : ITrie V → Bool
  | .mk _ f _ => f

/-- Field `children` of the node struct. -/
def ITrie.children {V : Type} : ITrie V → List (Letter × ITrie V)
  | .mk _ _ cs => cs

/-- `Iter()` (iter_alt_trie.go:17) and `New()` (trie.go:31): the fresh root
`&iterTrie\x7bnil, false, nil\x7d`. -/
def emptyT {V : Type} : ITrie V := ITrie.mk none false []

/-- `iterTrie.getChild` (iter_alt_trie.go:21): linear scan of the children for
the first branch whose letter is `r`.  Go returns the index `i` or `-1`; the
callers immediately read `children[i].branch`, so the embedding returns the
index together with that branch, and `none` stands for `-1`. -/
def getChild {V : Type} : List (Letter × ITrie V) → Letter → Option (Nat × ITrie V)
  | [], _ => none
  | c :: cs, r =>
    if c.1 = r then some (0, c.2) else (getChild cs r).map (fun p => (p.1 + 1, p.2))

/-- The error values of the package (trie.go:248-276): `emptyKeyError`,
`duplicateKeyError`, `keynotFoundError`; the iterative variant returns the
same three conditions via `errors.New`. -/
inductive Err : Type where
  | emptyKey
  | duplicateKey
  | keyNotFound
deriving DecidableEq

/-- `iterTrie.add` (iter_alt_trie.go:45): walk the non-empty key `c :: rest`,
creating missing branches; at the last letter, fail (return `true`, "exists")
when the node is already a valid leaf, otherwise mark it terminal with the
value.  Go's loop carries the current node by pointer; the embedding recurses
on the rest of the key, rebuilding the path with `List.set` / append. -/
def add {V : Type} (t : ITrie V) (c : Letter) (rest : Key) (v : V) : Bool × ITrie V :=
  match rest with
  | r1 :: rs =>
    match getChild t.children c with
    | none =>
      let res := add (ITrie.mk none false []) r1 rs v
      (res.1, ITrie.mk t.value t.validLeaf (t.children ++ [(c, res.2)]))
    | some (i, child) =>
      let res := add child r1 rs v
      (res.1, ITrie.mk t.value t.validLeaf (t.children.set i (c, res.2)))
  | [] =>
    match getChild t.children c with
    | none =>
      (false, ITrie.mk t.value t.validLeaf (t.children ++ [(c, ITrie.mk (some v) true [])]))
    | some (i, leaf) =>
      if leaf.validLeaf then (true, t)
      else (false, ITrie.mk t.value t.validLeaf
        (t.children.set i (c, ITrie.mk (some v) true leaf.children)))

/-- `iterTrie.Add` (iter_alt_trie.go:31): reject the empty key, then run the
inner `add`; a `true` ("exists") answer becomes the duplicate-key error.  The
second component is the tree after the call. -/
def AddP {V : Type} (t : ITrie V) (key : Key) (v : V) : Option Err × ITrie V :=
  match key with
  | [] => (some Err.emptyKey, t)
  | c :: rest =>
    let res := add t c rest v
    (if res.1 then some Err.duplicateKey else none, res.2)

/-- `iterTrie.get` (iter_alt_trie.go:103) on the non-empty key `c :: rest`:
walk the branches; at the last letter return `(value, true)` for the child
found there.  Note the source returns `true` without consulting the child's
`validLeaf` flag. -/
def get {V : Type} (t : ITrie V) (c : Letter) (rest : Key) : Option V × Bool :=
  match rest with
  | r1 :: rs =>
    match getChild t.children c with
    | none => (none, false)
    | some (_, child) => get child r1 rs
  | [] =>
    match getChild t.children c with
    | none => (none, false)
    | some (_, child) => (child.value, true)

/-- `iterTrie.Get` (iter_alt_trie.go:96): empty key is not found, otherwise the
inner `get`. -/
def GetP {V : Type} (t : ITrie V) (key : Key) : Option V × Bool :=
  match key with
  | [] => (none, false)
  | c :: rest => get t c rest

/-- The shared descent loop (`for len(key) > 0 ... getChild ... descend`) used
by `trie.Get`, `trie.Search`, `trie.Update` (trie.go) and by the prefix phase
of `iterTrie.search`: the node the key leads to, or `none` when some letter has
no branch. -/
def walk {V : Type} (t : ITrie V) : Key → Option (ITrie V)
  | [] => some t
  | c :: rest =>
    match getChild t.children c with
    | none => none
    | some (_, child) => walk child rest

/-- `trie.Get` (trie.go:109 and trie.go:389): empty key is not found; otherwise
walk the key and answer `(value, true)` only when the node found is a valid
leaf.  (This variant, unlike `iterTrie.get`, checks `validLeaf`.) -/
def trieGet {V : Type} (t : ITrie V) (key : Key) : Option V × Bool :=
  match key with
  | [] => (none, false)
  | _ :: _ =>
    match walk t key with
    | none => (none, false)
    | some n => if n.validLeaf then (n.value, true) else (none, false)

/-- Number of nodes of a subtree; the measure for the search loop. -/
def size {V : Type} : ITrie V → Nat
  | ITrie.mk _ _ cs => 1 + (cs.attach.map (fun p => size p.1.2)).sum
decreasing_by
  obtain ⟨⟨l, b⟩, hb⟩ := p
  have h1 := List.sizeOf_lt_of_mem hb
  simp only [Prod.mk.sizeOf_spec] at h1
  simp only [ITrie.mk.sizeOf_spec]
  omega

/-- The weight of one frame of the search stack: the frame holding cursor `i`
at node `t` still has to traverse the subtrees of the children from `i` on and
then pop itself. -/
def frameW {V : Type} (f : Nat × ITrie V) : Nat :=
  1 + 2 * ((f.2.children.drop f.1).map (fun p => size p.2)).sum

/-- Total weight of a search stack. -/
def stackW {V : Type} (st : List (Nat × ITrie V)) : Nat := (st.map frameW).sum

/-- The depth-first loop of `iterTrie.search` (iter_alt_trie.go:155) and
`trie.Search` (trie.go:433).  A Go frame is `stackNode\x7bindex, leaf\x7d` with
`index` starting at `-1` and pre-incremented each iteration; the embedding
stores the already-incremented cursor, so it starts at `0`.  Per iteration:
if the cursor is past the children, emit the node's value when it is a valid
leaf and pop; otherwise push the child at the cursor (with cursor `0`) and
advance this frame's cursor.  The Go stack grows at the tail; the embedding
keeps the tip at the head. -/
def searchLoop {V : Type} (st : List (Nat × ITrie V)) (results : List (Option V)) :
    List (Option V) :=
  match st with
  | [] => results
  | (i, t) :: rest =>
    if h : i < t.children.length then
      searchLoop ((0, (t.children.get ⟨i, h⟩).2) :: (i + 1, t) :: rest) results
    else
      searchLoop rest (results ++ if t.validLeaf then [t.value] else [])
termination_by stackW st
decreasing_by
  · simp only [stackW, frameW, List.map_cons, List.sum_cons]
    have hdrop : t.children.drop i = t.children.get ⟨i, h⟩ :: t.children.drop (i + 1) := by
      rw [List.get_eq_getElem]
      exact (List.getElem_cons_drop _ _ h).symm
    rw [hdrop]
    rcases hg : t.children.get ⟨i, h⟩ with ⟨l, b⟩
    simp only [List.map_cons, List.sum_cons, List.drop_zero]
    cases b with
    | mk bv bf bcs =>
      rw [size]
      have haux : (bcs.attach.map (fun p => size p.1.2)).sum
          = (bcs.map (fun p => size p.2)).sum := by
        rw [List.attach_map_coe bcs (fun p => size p.2)]
      simp only [ITrie.children]
      omega
  · simp only [stackW, frameW, List.map_cons, List.sum_cons]
    omega

/-- `iterTrie.search` / `trie.Search` (iter_alt_trie.go:138, trie.go:416):
walk the prefix (returning the empty results when some letter is missing),
then run the depth-first loop from the node found, starting with one frame. -/
def SearchP {V : Type} (t : ITrie V) (key : Key) : List (Option V) :=
  match walk t key with
  | none => []
  | some root => searchLoop [(0, root)] []

/-- The swap-with-last removal of the child at index `i`
(iter_alt_trie.go:224-230 and trie.go:495-501): overwrite entry `i` with the
last entry, then shrink the list by one. -/
def removeSwapIdx {V : Type} (cs : List (Letter × ITrie V)) (i : Nat) :
    List (Letter × ITrie V) :=
  (cs.set i (cs.getLastD ((0 : Letter), emptyT))).dropLast

/-- `iterTrie.remove` (iter_alt_trie.go:188) and `trie.Remove` (trie.go:456) on
the non-empty key `c :: rest`.  Walk the key, recording the path; fail (with no
mutation) when a branch is missing or the final node is not a valid leaf;
otherwise clear the final node's value and flag, then prune upward: while the
deepest surviving node is a non-terminal childless node, remove it from its
parent by the swap-with-last move.  The recursion plays the recorded stack
back: a successful call on the child prunes the child from this node exactly
when the child came back dead, which is Go's unwinding loop with its
`tip > 0` guard (the root is never pruned from anything). -/
def remove {V : Type} (t : ITrie V) (c : Letter) (rest : Key) : Bool × ITrie V :=
  match rest with
  | [] =>
    match getChild t.children c with
    | none => (false, t)
    | some (i, child) =>
      if child.validLeaf then
        if child.children.isEmpty then
          (true, ITrie.mk t.value t.validLeaf (removeSwapIdx t.children i))
        else
          (true, ITrie.mk t.value t.validLeaf
            (t.children.set i (c, ITrie.mk none false child.children)))
      else (false, t)
  | r1 :: rs =>
    match getChild t.children c with
    | none => (false, t)
    | some (i, child) =>
      let res := remove child r1 rs
      if res.1 then
        if !res.2.validLeaf && res.2.children.isEmpty then
          (true, ITrie.mk t.value t.validLeaf (removeSwapIdx t.children i))
        else
          (true, ITrie.mk t.value t.validLeaf (t.children.set i (c, res.2)))
      else (false, t)

/-- `iterTrie.Remove` (iter_alt_trie.go:178) / `trie.Remove` (trie.go:456).
On the empty key the walk loop body never runs, `tip` stays `-1`, and the Go
code indexes `branch[tip]`: an index-out-of-range runtime panic, modelled by
`none`.  On a non-empty key the inner `remove` runs; `false` becomes the
key-not-found error. -/
def RemoveP {V : Type} (t : ITrie V) (key : Key) : Option (Option Err × ITrie V) :=
  match key with
  | [] => none
  | c :: rest =>
    let res := remove t c rest
    some (if res.1 then none else some Err.keyNotFound, res.2)

/-- `iterTrie.update` (iter_alt_trie.go:250) on the non-empty key `c :: rest`:
walk the key; fail (with no mutation) when a branch is missing or the resolved
node is not a valid leaf; otherwise assign the node's value in place. -/
def update {V : Type} (t : ITrie V) (c : Letter) (rest : Key) (v : V) : Bool × ITrie V :=
  match rest with
  | [] =>
    match getChild t.children c with
    | none => (false, t)
    | some (i, child) =>
      if child.validLeaf then
        (true, ITrie.mk t.value t.validLeaf
          (t.children.set i (c, ITrie.mk (some v) child.validLeaf child.children)))
      else (false, t)
  | r1 :: rs =>
    match getChild t.children c with
    | none => (false, t)
    | some (i, child) =>
      let res := update child r1 rs v
      if res.1 then (true, ITrie.mk t.value t.validLeaf (t.children.set i (c, res.2)))
      else (false, t)

/-- `iterTrie.Update` (iter_alt_trie.go:241).  On the empty key the inner
`update` evaluates `r[0]` on an empty slice: an index-out-of-range runtime
panic, modelled by `none`.  Otherwise `false` becomes the key-not-found
error. -/
def UpdateP {V : Type} (t : ITrie V) (key : Key) (v : V) : Option (Option Err × ITrie V) :=
  match key with
  | [] => none
  | c :: rest =>
    let res := update t c rest v
    some (if res.1 then none else some Err.keyNotFound, res.2)

/-- `trie.Update` (trie.go:230 and trie.go:512): both `trie.go` variants guard
the empty key with the `emptyKey()` error before walking; the walk-and-assign
on a non-empty key is the same first-match descent as `iterTrie.update`, so it
is shared. -/
def trieUpdate {V : Type} (t : ITrie V) (key : Key) (v : V) : Option Err × ITrie V :=
  match key with
  | [] => (some Err.emptyKey, t)
  | c :: rest =>
    let res := update t c rest v
    (if res.1 then none else some Err.keyNotFound, res.2)

/-- The state after a public `Add` call. -/
def addT {V : Type} (t : ITrie V) (k : Key) (v : V) : ITrie V := (AddP t k v).2

/-- The state after a public `Remove` call (unchanged when the call panics). -/
def removeT {V : Type} (t : ITrie V) (k : Key) : ITrie V :=
  match RemoveP t k with
  | none => t
  | some res => res.2

/-- The state after a public `Update` call (unchanged when the call panics). -/
def updateT {V : Type} (t : ITrie V) (k : Key) (v : V) : ITrie V :=
  match UpdateP t k v with
  | none => t
  | some res => res.2

/-- The trie states a client can reach through the public interface, starting
from `Iter()`.  `Get` and `Search` do not mutate the tree. -/
inductive Reachable {V : Type} : ITrie V → Prop where
  | empty : Reachable emptyT
  | add (t : ITrie V) (k : Key) (v : V) : Reachable t → Reachable (addT t k v)
  | remove (t : ITrie V) (k : Key) : Reachable t → Reachable (removeT t k)
  | update (t : ITrie V) (k : Key) (v : V) : Reachable t → Reachable (updateT t k v)

/-- The letters on a node's branches. -/
def lettersOf {V : Type} (cs : List (Letter × ITrie V)) : List Letter := cs.map (fun p => p.1)

/-- Invariant I3 at every node: no two sibling branches share a letter. -/
inductive Wf {V : Type} : ITrie V → Prop where
  | mk (v : Option V) (f : Bool) (cs : List (Letter × ITrie V)) :
      (lettersOf cs).Nodup → (∀ p ∈ cs, Wf p.2) → Wf (ITrie.mk v f cs)

/-- Invariant I2 for a non-root node: a childless node is terminal, and the
same holds below it. -/
inductive NodeOk {V : Type} : ITrie V → Prop where
  | mk (v : Option V) (f : Bool) (cs : List (Letter × ITrie V)) :
      (cs = [] → f = true) → (∀ p ∈ cs, NodeOk p.2) → NodeOk (ITrie.mk v f cs)

/-- Invariant I2 for the whole tree: every node other than the root satisfies
`NodeOk`'s childless-implies-terminal condition. -/
def RootOk {V : Type} (t : ITrie V) : Prop := ∀ p ∈ t.children, NodeOk p.2

/-- The stored bindings of a tree, read off the structure: one `(key, value)`
pair per valid leaf, the key being the path of letters to it.  Listed in the
depth-first order of the search loop (children first, the node itself last). -/
def kvList {V : Type} : ITrie V → List (Key × Option V)
  | ITrie.mk v f cs =>
    (cs.attach.map (fun p => (kvList p.1.2).map (fun kv => (p.1.1 :: kv.1, kv.2)))).flatten
      ++ (if f then [([], v)] else [])
decreasing_by
  obtain ⟨⟨l, b⟩, hb⟩ := p
  have h1 := List.sizeOf_lt_of_mem hb
  simp only [Prod.mk.sizeOf_spec] at h1
  simp only [ITrie.mk.sizeOf_spec]
  omega

/-- The values the depth-first loop emits from a subtree: children in order,
then the node itself when it is a valid leaf. -/
def collect {V : Type} : ITrie V → List (Option V)
  | ITrie.mk v f cs =>
    (cs.attach.map (fun p => collect p.1.2)).flatten ++ (if f then [(v : Option V)] else [])
decreasing_by
  obtain ⟨⟨l, b⟩, hb⟩ := p
  have h1 := List.sizeOf_lt_of_mem hb
  simp only [Prod.mk.sizeOf_spec] at h1
  simp only [ITrie.mk.sizeOf_spec]
  omega

/-- The common tail of `trie.Get`-style lookups: walk the key from `t` and
answer `(value, true)` only at a valid leaf.  `trieGet` is this preceded by the
empty-key guard. -/
def walkGet {V : Type} (t : ITrie V) (k : Key) : Option V × Bool :=
  match walk t k with
  | none => (none, false)
  | some n => if n.validLeaf then (n.value, true) else (none, false)

/-- Fuel-counted image of the `iterTrie.add` loop: one unit of fuel per
iteration of Go's `for` loop, `none` when the fuel runs out first. -/
def addF {V : Type} : Nat → ITrie V → Letter → Key → V → Option (Bool × ITrie V)
  | 0, _, _, _, _ => none
  | n + 1, t, c, rest, v =>
    match rest with
    | r1 :: rs =>
      match getChild t.children c with
      | none =>
        (addF n (ITrie.mk none false []) r1 rs v).map
          (fun res => (res.1, ITrie.mk t.value t.validLeaf (t.children ++ [(c, res.2)])))
      | some (i, child) =>
        (addF n child r1 rs v).map
          (fun res => (res.1, ITrie.mk t.value t.validLeaf (t.children.set i (c, res.2))))
    | [] =>
      match getChild t.children c with
      | none =>
        some (false, ITrie.mk t.value t.validLeaf
          (t.children ++ [(c, ITrie.mk (some v) true [])]))
      | some (i, leaf) =>
        if leaf.validLeaf then some (true, t)
        else some (false, ITrie.mk t.value t.validLeaf
          (t.children.set i (c, ITrie.mk (some v) true leaf.children)))

/-- Fuel-counted image of the `iterTrie.get` loop. -/
def getF {V : Type} : Nat → ITrie V → Letter → Key → Option (Option V × Bool)
  | 0, _, _, _ => none
  | n + 1, t, c, rest =>
    match rest with
    | r1 :: rs =>
      match getChild t.children c with
      | none => some (none, false)
      | some (_, child) => getF n child r1 rs
    | [] =>
      match getChild t.children c with
      | none => some (none, false)
      | some (_, child) => some (child.value, true)

/-- Fuel-counted image of the `iterTrie.update` loop. -/
def updateF {V : Type} : Nat → ITrie V → Letter → Key → V → Option (Bool × ITrie V)
  | 0, _, _, _, _ => none
  | n + 1, t, c, rest, v =>
    match rest with
    | [] =>
      match getChild t.children c with
      | none => some (false, t)
      | some (i, child) =>
        if child.validLeaf then
          some (true, ITrie.mk t.value t.validLeaf
            (t.children.set i (c, ITrie.mk (some v) child.validLeaf child.children)))
        else some (false, t)
    | r1 :: rs =>
      match getChild t.children c with
      | none => some (false, t)
      | some (i, child) =>
        (updateF n child r1 rs v).map (fun res =>
          if res.1 then (true, ITrie.mk t.value t.validLeaf (t.children.set i (c, res.2)))
          else (false, t))

/-- Fuel-counted image of the `iterTrie.remove` walk-and-unwind: one unit of
fuel per letter of the key. -/
def removeF {V : Type} : Nat → ITrie V → Letter → Key → Option (Bool × ITrie V)
  | 0, _, _, _ => none
  | n + 1, t, c, rest =>
    match rest with
    | [] =>
      match getChild t.children c with
      | none => some (false, t)
      | some (i, child) =>
        if child.validLeaf then
          if child.children.isEmpty then
            some (true, ITrie.mk t.value t.validLeaf (removeSwapIdx t.children i))
          else
            some (true, ITrie.mk t.value t.validLeaf
              (t.children.set i (c, ITrie.mk none false child.children)))
        else some (false, t)
    | r1 :: rs =>
      match getChild t.children c with
      | none => some (false, t)
      | some (i, child) =>
        (removeF n child r1 rs).map (fun res =>
          if res.1 then
            if !res.2.validLeaf && res.2.children.isEmpty then
              (true, ITrie.mk t.value t.validLeaf (removeSwapIdx t.children i))
            else
              (true, ITrie.mk t.value t.validLeaf (t.children.set i (c, res.2)))
          else (false, t))

/-- Fuel-counted image of the depth-first search loop: one unit of fuel per
iteration of Go's `for tip >= 0` loop, `none` when the fuel runs out first. -/
def searchLoopF {V : Type} : Nat → List (Nat × ITrie V) → List (Option V) →
    Option (List (Option V))
  | _, [], res => some res
  | 0, _ :: _, _ => none
  | n + 1, (i, t) :: rest, res =>
    if h : i < t.children.length then
      searchLoopF n ((0, (t.children.get ⟨i, h⟩).2) :: (i + 1, t) :: rest) res
    else
      searchLoopF n rest (res ++ if t.validLeaf then [t.value] else [])

/-- What one search-stack frame still contributes: the subtrees of the
children from the cursor on, then the node's own value when it is a valid
leaf. -/
def collectFrom {V : Type} (i : Nat) (t : ITrie V) : List (Option V) :=
  ((t.children.drop i).map (fun p => collect p.2)).flatten
    ++ (if t.validLeaf then [t.value] else [])

/-- The shape of a tree: every node with its terminal flag and the letters of
its branches, the stored values erased.  Two trees of equal shape have the same
nodes, edges and terminal marks. -/
def shape {V : Type} : ITrie V → ITrie Unit
  | ITrie.mk _ f cs => ITrie.mk none f (cs.attach.map (fun p => (p.1.1, shape p.1.2)))
decreasing_by
  obtain ⟨⟨l, b⟩, hb⟩ := p
  have h1 := List.sizeOf_lt_of_mem hb
  simp only [Prod.mk.sizeOf_spec] at h1
  simp only [ITrie.mk.sizeOf_spec]
  omega

/-- A small concrete state used to instantiate the theorems: the tree after
`Add [0] 1` and then `Add [0, 1] 2` on a fresh trie. -/
def sampleT : ITrie Nat := addT (addT emptyT [0] 1) [0, 1] 2

/-- Structural induction over the rose-tree shape of `ITrie`: to prove a
property of every tree it is enough to prove it of a node from the property of
all its children. -/
theorem inductionOn {V : Type} {motive : ITrie V → Prop}
    (h : ∀ (v : Option V) (f : Bool) (cs : List (Letter × ITrie V)),
      (∀ p ∈ cs, motive p.2) → motive (ITrie.mk v f cs)) :
    ∀ t, motive t
  | ITrie.mk v f cs => h v f cs (fun p hp => inductionOn h p.2)
termination_by t => sizeOf t
decreasing_by
  obtain ⟨l, b⟩ := p
  have h1 := List.sizeOf_lt_of_mem hp
  simp only [Prod.mk.sizeOf_spec] at h1
  simp only [ITrie.mk.sizeOf_spec]
  omega

/-- `size` unfolded with a plain `map`. -/
theorem size_mk {V : Type} (v : Option V) (f : Bool) (cs : List (Letter × ITrie V)) :
    size (ITrie.mk v f cs) = 1 + (cs.map (fun p => size p.2)).sum := by
  rw [size, List.attach_map_coe cs (fun p => size p.2)]

/-- `kvList` unfolded with a plain `map`. -/
theorem kvList_mk {V : Type} (v : Option V) (f : Bool) (cs : List (Letter × ITrie V)) :
    kvList (ITrie.mk v f cs)
      = (cs.map (fun p => (kvList p.2).map (fun kv => (p.1 :: kv.1, kv.2)))).flatten
        ++ (if f then [([], v)] else []) := by
  rw [kvList, List.attach_map_coe cs (fun p => (kvList p.2).map (fun kv => (p.1 :: kv.1, kv.2)))]

/-- `collect` unfolded with a plain `map`. -/
theorem collect_mk {V : Type} (v : Option V) (f : Bool) (cs : List (Letter × ITrie V)) :
    collect (ITrie.mk v f cs)
      = (cs.map (fun p => collect p.2)).flatten ++ (if f then [(v : Option V)] else []) := by
  rw [collect, List.attach_map_coe cs (fun p => collect p.2)]

/-- The branch `getChild` finds, without its index: the node the walk steps
into. -/
def findBr {V : Type} (cs : List (Letter × ITrie V)) (d : Letter) : Option (ITrie V) :=
  (getChild cs d).map (fun p => p.2)

/-- `findBr` on a cons. -/
theorem findBr_cons {V : Type} (p : Letter × ITrie V) (ps : List (Letter × ITrie V))
    (d : Letter) : findBr (p :: ps) d = if p.1 = d then some p.2 else findBr ps d := by
  by_cases hc : p.1 = d
  · simp [findBr, getChild, hc]
  · simp only [findBr, getChild, hc, if_false, Option.map_map]
    rfl

/-- `getChild` hits a letter exactly when `findBr` does. -/
theorem findBr_eq_none {V : Type} {cs : List (Letter × ITrie V)} {d : Letter} :
    findBr cs d = none ↔ getChild cs d = none := by
  unfold findBr
  cases getChild cs d <;> simp

/-- `findBr` answers are in step with `getChild` answers. -/
theorem findBr_eq_some {V : Type} {cs : List (Letter × ITrie V)} {d : Letter}
    {b : ITrie V} : findBr cs d = some b ↔ ∃ i, getChild cs d = some (i, b) := by
  unfold findBr
  cases hg : getChild cs d with
  | none => simp
  | some q =>
    obtain ⟨qi, qb⟩ := q
    simp only [Option.map_some', Option.some.injEq]
    constructor
    · intro hb
      exact ⟨qi, by rw [hb]⟩
    · rintro ⟨i, hi⟩
      simp only [Option.some.injEq, Prod.mk.injEq] at hi
      exact hi.2

/-- Distinct letters on a cons, split off the head. -/
theorem nodupLetters_cons {V : Type} {p : Letter × ITrie V} {ps : List (Letter × ITrie V)} :
    (lettersOf (p :: ps)).Nodup ↔ p.1 ∉ lettersOf ps ∧ (lettersOf ps).Nodup := by
  simp [lettersOf]

/-- `getChild` misses exactly the letters outside the branch list. -/
theorem getChild_eq_none {V : Type} {cs : List (Letter × ITrie V)} {c : Letter} :
    getChild cs c = none ↔ c ∉ lettersOf cs := by
  induction cs with
  | nil => simp [getChild, lettersOf]
  | cons p ps ih =>
    by_cases hc : p.1 = c
    · simp [getChild, hc, lettersOf]
    · have hcc : ¬c = p.1 := fun hcp => hc hcp.symm
      cases hg : getChild ps c with
      | none =>
        have hnotin := ih.mp hg
        simp only [lettersOf, List.map_cons, List.mem_cons] at hnotin ⊢
        simp [getChild, hc, hg, hcc, hnotin]
      | some q =>
        have hin : c ∈ lettersOf ps := by
          by_contra hn
          rw [ih.mpr hn] at hg
          cases hg
        simp only [lettersOf, List.map_cons, List.mem_cons] at hin ⊢
        simp [getChild, hc, hg, hin]

/-- A hit of `getChild` is a member of the branch list. -/
theorem getChild_mem {V : Type} {cs : List (Letter × ITrie V)} {c : Letter} {i : Nat}
    {b : ITrie V} (h : getChild cs c = some (i, b)) : (c, b) ∈ cs := by
  induction cs generalizing i with
  | nil => simp [getChild] at h
  | cons p ps ih =>
    obtain ⟨pl, pb⟩ := p
    by_cases hc : pl = c
    · simp only [getChild, hc, if_true, Option.some.injEq, Prod.mk.injEq] at h
      subst hc
      simp [h.2]
    · simp only [getChild, hc, if_false] at h
      cases hg : getChild ps c with
      | none => rw [hg] at h; cases h
      | some q =>
        obtain ⟨qi, qb⟩ := q
        rw [hg] at h
        simp only [Option.map_some', Option.some.injEq, Prod.mk.injEq] at h
        have hq2 : getChild ps c = some (qi, b) := by rw [hg, h.2]
        exact List.mem_cons_of_mem _ (ih hq2)

/-- With distinct sibling letters, a member of the branch list is what
`findBr` finds. -/
theorem findBr_of_mem {V : Type} {cs : List (Letter × ITrie V)} {c : Letter} {b : ITrie V}
    (hn : (lettersOf cs).Nodup) (hm : (c, b) ∈ cs) : findBr cs c = some b := by
  induction cs with
  | nil => cases hm
  | cons p ps ih =>
    rw [findBr_cons]
    rcases List.mem_cons.mp hm with hm1 | hm2
    · rw [← hm1]
      simp
    · rw [nodupLetters_cons] at hn
      have hc : p.1 ≠ c := by
        intro hpc
        have : c ∈ lettersOf ps := by
          simp only [lettersOf, List.mem_map]
          exact ⟨(c, b), hm2, rfl⟩
        rw [hpc] at hn
        exact hn.1 this
      rw [if_neg hc]
      exact ih hn.2 hm2

/-- Setting the hit entry of a branch list to the same letter redirects the
lookup of that letter to the new branch. -/
theorem getChild_set_same {V : Type} {cs : List (Letter × ITrie V)} {c : Letter} {i : Nat}
    {b : ITrie V} (b' : ITrie V) (h : getChild cs c = some (i, b)) :
    getChild (cs.set i (c, b')) c = some (i, b') := by
  induction cs generalizing i with
  | nil => simp [getChild] at h
  | cons p ps ih =>
    obtain ⟨pl, pb⟩ := p
    by_cases hc : pl = c
    · simp only [getChild, hc, if_true, Option.some.injEq, Prod.mk.injEq] at h
      rw [← h.1]
      simp [getChild]
    · simp only [getChild, hc, if_false] at h
      cases hg : getChild ps c with
      | none => rw [hg] at h; cases h
      | some q =>
        obtain ⟨qi, qb⟩ := q
        rw [hg] at h
        simp only [Option.map_some', Option.some.injEq, Prod.mk.injEq] at h
        have hq2 : getChild ps c = some (qi, b) := by rw [hg, h.2]
        rw [← h.1]
        simp only [List.set_cons_succ, getChild, hc, if_false, ih hq2, Option.map_some']

/-- Setting the hit entry of a letter leaves the lookup of other letters
unchanged. -/
theorem getChild_set_other {V : Type} {cs : List (Letter × ITrie V)} {c d : Letter} {i : Nat}
    {b : ITrie V} (b' : ITrie V) (h : getChild cs c = some (i, b)) (hd : d ≠ c) :
    getChild (cs.set i (c, b')) d = getChild cs d := by
  induction cs generalizing i with
  | nil => simp [getChild] at h
  | cons p ps ih =>
    obtain ⟨pl, pb⟩ := p
    by_cases hc : pl = c
    · simp only [getChild, hc, if_true, Option.some.injEq, Prod.mk.injEq] at h
      rw [← h.1]
      have hdl : ¬c = d := fun hcd => hd hcd.symm
      simp [getChild, hc, hdl]
    · simp only [getChild, hc, if_false] at h
      cases hg : getChild ps c with
      | none => rw [hg] at h; cases h
      | some q =>
        obtain ⟨qi, qb⟩ := q
        rw [hg] at h
        simp only [Option.map_some', Option.some.injEq, Prod.mk.injEq] at h
        have hq2 : getChild ps c = some (qi, b) := by rw [hg, h.2]
        rw [← h.1]
        by_cases hpd : pl = d
        · simp [getChild, hpd]
        · simp only [List.set_cons_succ, getChild, hpd, if_false, ih hq2]

/-- Setting the hit entry of a letter to the same letter keeps the letters of
the branch list unchanged. -/
theorem lettersOf_set {V : Type} {cs : List (Letter × ITrie V)} {c : Letter} {i : Nat}
    {b : ITrie V} (b' : ITrie V) (h : getChild cs c = some (i, b)) :
    lettersOf (cs.set i (c, b')) = lettersOf cs := by
  induction cs generalizing i with
  | nil => simp [getChild] at h
  | cons p ps ih =>
    obtain ⟨pl, pb⟩ := p
    by_cases hc : pl = c
    · simp only [getChild, hc, if_true, Option.some.injEq, Prod.mk.injEq] at h
      rw [← h.1]
      simp [lettersOf, hc]
    · simp only [getChild, hc, if_false] at h
      cases hg : getChild ps c with
      | none => rw [hg] at h; cases h
      | some q =>
        obtain ⟨qi, qb⟩ := q
        rw [hg] at h
        simp only [Option.map_some', Option.some.injEq, Prod.mk.injEq] at h
        have hq2 : getChild ps c = some (qi, b) := by rw [hg, h.2]
        rw [← h.1]
        have hlet := ih hq2
        simp only [List.set_cons_succ, lettersOf, List.map_cons] at hlet ⊢
        rw [hlet]

/-- The swap-with-last removal of the entry at index `i` keeps the same
branches as dropping the entry, up to order. -/
theorem removeSwapIdx_perm {V : Type} (cs : List (Letter × ITrie V)) (i : Nat)
    (hi : i < cs.length) : (removeSwapIdx cs i).Perm (cs.eraseIdx i) := by
  induction cs generalizing i with
  | nil => cases hi
  | cons p ps ih =>
    cases i with
    | zero =>
      cases ps with
      | nil => simp [removeSwapIdx]
      | cons q qs =>
        have hqne : (q :: qs) ≠ [] := by simp
        have hlast : (p :: q :: qs).getLastD ((0 : Letter), emptyT)
            = (q :: qs).getLast hqne := by
          rw [List.getLastD_eq_getLast?, List.getLast?_cons_cons,
            List.getLast?_eq_getLast _ hqne]
          rfl
        simp only [removeSwapIdx, List.set_cons_zero, hlast, List.eraseIdx_cons_zero]
        rw [List.dropLast_cons_of_ne_nil hqne]
        have hsplit : (q :: qs).dropLast ++ [(q :: qs).getLast hqne] = q :: qs :=
          List.dropLast_concat_getLast hqne
        have h2 : ((q :: qs).dropLast ++ [(q :: qs).getLast hqne]).Perm (q :: qs) := by
          rw [hsplit]
        exact ((List.perm_append_singleton _ _).symm).trans h2
    | succ j =>
      have hj : j < ps.length := by simpa using hi
      have hpsne : ps ≠ [] := by
        intro hcon
        rw [hcon] at hj
        cases hj
      have hlast : (p :: ps).getLastD ((0 : Letter), emptyT)
          = ps.getLastD ((0 : Letter), emptyT) := by
        cases ps with
        | nil => exact absurd rfl hpsne
        | cons q qs =>
          rw [List.getLastD_eq_getLast?, List.getLastD_eq_getLast?, List.getLast?_cons_cons]
      have hsetne : ps.set j (ps.getLastD ((0 : Letter), emptyT)) ≠ [] := by
        intro hcon
        have := congrArg List.length hcon
        simp at this
        rw [this] at hj
        cases hj
      simp only [removeSwapIdx, List.set_cons_succ, hlast, List.eraseIdx_cons_succ]
      rw [List.dropLast_cons_of_ne_nil hsetne]
      exact (ih j hj).cons p

/-- Under distinct sibling letters, the first-match lookup does not depend on
the order of the branch list. -/
theorem findBr_perm {V : Type} {cs cs' : List (Letter × ITrie V)} (hp : cs.Perm cs')
    (hn : (lettersOf cs).Nodup) (d : Letter) : findBr cs d = findBr cs' d := by
  induction hp with
  | nil => rfl
  | cons x hp ih =>
    rw [findBr_cons, findBr_cons]
    rw [nodupLetters_cons] at hn
    rw [ih hn.2]
  | swap x y l =>
    rw [findBr_cons, findBr_cons, findBr_cons, findBr_cons]
    by_cases hy : y.1 = d
    · by_cases hx : x.1 = d
      · exfalso
        rw [nodupLetters_cons, nodupLetters_cons] at hn
        have hmem : y.1 ∈ lettersOf (x :: l) := by
          simp [lettersOf, hy, hx]
        exact hn.1 hmem
      · simp [hy, hx]
    · simp [hy]
  | trans h1 h2 ih1 ih2 =>
    have hp2 := List.Perm.map (fun p : Letter × ITrie V => p.1) h1
    have hn2 : (lettersOf _).Nodup := hp2.nodup_iff.mp (by simpa [lettersOf] using hn)
    rw [ih1 hn, ih2 hn2]

/-- Letters of the branch list after the swap-with-last removal: a permutation
of the letters with the erased one dropped. -/
theorem lettersOf_removeSwapIdx_perm {V : Type} (cs : List (Letter × ITrie V)) (i : Nat)
    (hi : i < cs.length) :
    (lettersOf (removeSwapIdx cs i)).Perm (lettersOf (cs.eraseIdx i)) := by
  have hp := List.Perm.map (fun p : Letter × ITrie V => p.1) (removeSwapIdx_perm cs i hi)
  simpa [lettersOf] using hp

/-- A node is its fields. -/
theorem ITrie.eta {V : Type} (t : ITrie V) : ITrie.mk t.value t.validLeaf t.children = t := by
  cases t
  rfl

/-- `Wf` at a node, unfolded. -/
theorem wf_mk_iff {V : Type} {v : Option V} {f : Bool} {cs : List (Letter × ITrie V)} :
    Wf (ITrie.mk v f cs) ↔ (lettersOf cs).Nodup ∧ ∀ p ∈ cs, Wf p.2 := by
  constructor
  · rintro ⟨_, _, _, hn, hc⟩
    exact ⟨hn, hc⟩
  · rintro ⟨hn, hc⟩
    exact Wf.mk v f cs hn hc

/-- `NodeOk` at a node, unfolded. -/
theorem nodeOk_mk_iff {V : Type} {v : Option V} {f : Bool} {cs : List (Letter × ITrie V)} :
    NodeOk (ITrie.mk v f cs) ↔ (cs = [] → f = true) ∧ ∀ p ∈ cs, NodeOk p.2 := by
  constructor
  · rintro ⟨_, _, _, hf, hc⟩
    exact ⟨hf, hc⟩
  · rintro ⟨hf, hc⟩
    exact NodeOk.mk v f cs hf hc

/-- The fresh trie is well formed. -/
theorem wf_emptyT {V : Type} : Wf (emptyT : ITrie V) := by
  rw [emptyT, wf_mk_iff]
  exact ⟨by simp [lettersOf], by simp⟩

/-- The index `getChild` returns is within the branch list. -/
theorem getChild_lt {V : Type} {cs : List (Letter × ITrie V)} {c : Letter} {i : Nat}
    {b : ITrie V} (h : getChild cs c = some (i, b)) : i < cs.length := by
  induction cs generalizing i with
  | nil => cases h
  | cons p ps ih =>
    by_cases hc : p.1 = c
    · simp only [getChild, hc, if_true, Option.some.injEq, Prod.mk.injEq] at h
      rw [← h.1]
      simp
    · simp only [getChild, hc, if_false] at h
      cases hg : getChild ps c with
      | none => rw [hg] at h; cases h
      | some q =>
        obtain ⟨qi, qb⟩ := q
        rw [hg] at h
        simp only [Option.map_some', Option.some.injEq, Prod.mk.injEq] at h
        rw [← h.1]
        simpa using ih (by rw [hg, h.2])

/-- Writing back the branch `getChild` found changes nothing. -/
theorem set_getChild_self {V : Type} {cs : List (Letter × ITrie V)} {c : Letter} {i : Nat}
    {b : ITrie V} (h : getChild cs c = some (i, b)) : cs.set i (c, b) = cs := by
  induction cs generalizing i with
  | nil => cases h
  | cons p ps ih =>
    obtain ⟨pl, pb⟩ := p
    by_cases hc : pl = c
    · simp only [getChild, hc, if_true, Option.some.injEq, Prod.mk.injEq] at h
      rw [← h.1, ← h.2, hc]
      rfl
    · simp only [getChild, hc, if_false] at h
      cases hg : getChild ps c with
      | none => rw [hg] at h; cases h
      | some q =>
        obtain ⟨qi, qb⟩ := q
        rw [hg] at h
        simp only [Option.map_some', Option.some.injEq, Prod.mk.injEq] at h
        rw [← h.1]
        simp only [List.set_cons_succ]
        rw [ih (by rw [hg, h.2])]

/-- Dropping the entry `getChild` found removes its letter for good. -/
theorem eraseIdx_letter_notin {V : Type} {cs : List (Letter × ITrie V)} {c : Letter} {i : Nat}
    {b : ITrie V} (h : getChild cs c = some (i, b)) (hn : (lettersOf cs).Nodup) :
    c ∉ lettersOf (cs.eraseIdx i) := by
  induction cs generalizing i with
  | nil => cases h
  | cons p ps ih =>
    rw [nodupLetters_cons] at hn
    obtain ⟨pl, pb⟩ := p
    by_cases hc : pl = c
    · simp only [getChild, hc, if_true, Option.some.injEq, Prod.mk.injEq] at h
      rw [← h.1]
      simp only [List.eraseIdx_cons_zero]
      rw [← hc]
      exact hn.1
    · simp only [getChild, hc, if_false] at h
      cases hg : getChild ps c with
      | none => rw [hg] at h; cases h
      | some q =>
        obtain ⟨qi, qb⟩ := q
        rw [hg] at h
        simp only [Option.map_some', Option.some.injEq, Prod.mk.injEq] at h
        rw [← h.1]
        simp only [List.eraseIdx_cons_succ, lettersOf, List.map_cons, List.mem_cons]
        push_neg
        refine ⟨fun hcp => hc hcp.symm, ?_⟩
        have := ih (by rw [hg, h.2]) hn.2
        simpa [lettersOf] using this

/-- Dropping the entry `getChild` found leaves the lookup of other letters
unchanged. -/
theorem findBr_eraseIdx_other {V : Type} {cs : List (Letter × ITrie V)} {c d : Letter}
    {i : Nat} {b : ITrie V} (h : getChild cs c = some (i, b)) (hd : d ≠ c) :
    findBr (cs.eraseIdx i) d = findBr cs d := by
  induction cs generalizing i with
  | nil => cases h
  | cons p ps ih =>
    obtain ⟨pl, pb⟩ := p
    by_cases hc : pl = c
    · simp only [getChild, hc, if_true, Option.some.injEq, Prod.mk.injEq] at h
      rw [← h.1]
      simp only [List.eraseIdx_cons_zero]
      rw [findBr_cons]
      have : ¬(pl, pb).1 = d := by
        simp only [hc]
        exact fun hcd => hd hcd.symm
      rw [if_neg this]
    · simp only [getChild, hc, if_false] at h
      cases hg : getChild ps c with
      | none => rw [hg] at h; cases h
      | some q =>
        obtain ⟨qi, qb⟩ := q
        rw [hg] at h
        simp only [Option.map_some', Option.some.injEq, Prod.mk.injEq] at h
        rw [← h.1]
        simp only [List.eraseIdx_cons_succ]
        rw [findBr_cons, findBr_cons, ih (by rw [hg, h.2])]

/-- Letters after dropping an entry form a sublist, so distinctness and
membership carry over. -/
theorem lettersOf_eraseIdx_sublist {V : Type} (cs : List (Letter × ITrie V)) (i : Nat) :
    (lettersOf (cs.eraseIdx i)).Sublist (lettersOf cs) := by
  have h := List.eraseIdx_sublist cs i
  simpa [lettersOf] using h.map (fun p => p.1)

/-- After the swap-with-last removal of the branch of letter `c`, the lookup of
`c` misses. -/
theorem findBr_removeSwap_self {V : Type} {cs : List (Letter × ITrie V)} {c : Letter}
    {i : Nat} {b : ITrie V} (h : getChild cs c = some (i, b))
    (hn : (lettersOf cs).Nodup) : findBr (removeSwapIdx cs i) c = none := by
  have hperm := removeSwapIdx_perm cs i (getChild_lt h)
  have hnerase : (lettersOf (cs.eraseIdx i)).Nodup :=
    (lettersOf_eraseIdx_sublist cs i).nodup hn
  have hnswap : (lettersOf (removeSwapIdx cs i)).Nodup :=
    ((lettersOf_removeSwapIdx_perm cs i (getChild_lt h)).nodup_iff).mpr hnerase
  rw [findBr_perm hperm hnswap c]
  rw [findBr_eq_none, getChild_eq_none]
  exact eraseIdx_letter_notin h hn

/-- After the swap-with-last removal of the branch of letter `c`, the lookup of
any other letter is unchanged. -/
theorem findBr_removeSwap_other {V : Type} {cs : List (Letter × ITrie V)} {c d : Letter}
    {i : Nat} {b : ITrie V} (h : getChild cs c = some (i, b))
    (hn : (lettersOf cs).Nodup) (hd : d ≠ c) :
    findBr (removeSwapIdx cs i) d = findBr cs d := by
  have hperm := removeSwapIdx_perm cs i (getChild_lt h)
  have hnerase : (lettersOf (cs.eraseIdx i)).Nodup :=
    (lettersOf_eraseIdx_sublist cs i).nodup hn
  have hnswap : (lettersOf (removeSwapIdx cs i)).Nodup :=
    ((lettersOf_removeSwapIdx_perm cs i (getChild_lt h)).nodup_iff).mpr hnerase
  rw [findBr_perm hperm hnswap d]
  exact findBr_eraseIdx_other h hd

/-- A branch of the swap-with-last removal was a branch before it. -/
theorem mem_removeSwapIdx {V : Type} {cs : List (Letter × ITrie V)} {i : Nat}
    (hi : i < cs.length) {p : Letter × ITrie V} (hp : p ∈ removeSwapIdx cs i) : p ∈ cs := by
  have hperm := removeSwapIdx_perm cs i hi
  have : p ∈ cs.eraseIdx i := hperm.mem_iff.mp hp
  exact (List.eraseIdx_sublist cs i).mem this

/-- Appending a fresh letter: the new branch is found at the end. -/
theorem getChild_append_new {V : Type} {cs : List (Letter × ITrie V)} {c : Letter}
    (b : ITrie V) (h : getChild cs c = none) :
    getChild (cs ++ [(c, b)]) c = some (cs.length, b) := by
  induction cs with
  | nil => simp [getChild]
  | cons p ps ih =>
    by_cases hc : p.1 = c
    · simp [getChild, hc] at h
    · simp only [getChild, hc, if_false] at h ⊢
      cases hg : getChild ps c with
      | none =>
        rw [List.append_eq, ih hg]
        simp
      | some q => rw [hg] at h; cases h

/-- The walk along a non-empty key steps into the branch the first letter
finds. -/
theorem walk_cons {V : Type} (t : ITrie V) (c : Letter) (k : Key) :
    walk t (c :: k) = (findBr t.children c).bind (fun b => walk b k) := by
  cases hg : getChild t.children c with
  | none =>
    rw [findBr_eq_none.mpr hg]
    simp [walk, hg]
  | some q =>
    obtain ⟨qi, qb⟩ := q
    have hf : findBr t.children c = some qb := findBr_eq_some.mpr ⟨qi, hg⟩
    rw [hf]
    simp [walk, hg]

/-- `iterTrie.get` in terms of the walk: it answers `true` whenever the path
exists, taking the value of the node found there. -/
theorem get_eq_walk {V : Type} : ∀ (rest : Key) (t : ITrie V) (c : Letter),
    get t c rest = ((walk t (c :: rest)).map (fun n => (n.value, true))).getD (none, false) := by
  intro rest
  induction rest with
  | nil =>
    intro t c
    rw [walk_cons]
    cases hg : getChild t.children c with
    | none =>
      rw [findBr_eq_none.mpr hg]
      simp [get, hg]
    | some q =>
      obtain ⟨qi, qb⟩ := q
      rw [findBr_eq_some.mpr ⟨qi, hg⟩]
      simp [get, hg, walk]
  | cons r1 rs ih =>
    intro t c
    rw [walk_cons]
    cases hg : getChild t.children c with
    | none =>
      rw [findBr_eq_none.mpr hg]
      simp [get, hg]
    | some q =>
      obtain ⟨qi, qb⟩ := q
      rw [findBr_eq_some.mpr ⟨qi, hg⟩]
      simp only [get, hg, Option.some_bind]
      exact ih qb r1

/-- `walkGet` on the empty key inspects the node itself. -/
theorem walkGet_nil {V : Type} (t : ITrie V) :
    walkGet t [] = if t.validLeaf then (t.value, true) else (none, false) := rfl

/-- `walkGet` along a non-empty key steps into the branch of the first
letter. -/
theorem walkGet_cons {V : Type} (t : ITrie V) (c : Letter) (k : Key) :
    walkGet t (c :: k) = ((findBr t.children c).map (fun b => walkGet b k)).getD (none, false) := by
  rw [walkGet, walk_cons]
  cases findBr t.children c with
  | none => rfl
  | some b =>
    simp only [Option.some_bind, Option.map_some', Option.getD_some]
    rfl

/-- `trie.Get` is the guarded `walkGet`. -/
theorem trieGet_eq_walkGet {V : Type} (t : ITrie V) (k : Key) (hk : k ≠ []) :
    trieGet t k = walkGet t k := by
  cases k with
  | nil => exact absurd rfl hk
  | cons c rest => rfl

/-- Field reduction for `value`. -/
@[simp] theorem value_mk {V : Type} (v : Option V) (f : Bool) (cs : List (Letter × ITrie V)) :
    (ITrie.mk v f cs).value = v := rfl

/-- Field reduction for `validLeaf`. -/
@[simp] theorem validLeaf_mk {V : Type} (v : Option V) (f : Bool)
    (cs : List (Letter × ITrie V)) : (ITrie.mk v f cs).validLeaf = f := rfl

/-- Field reduction for `children`. -/
@[simp] theorem children_mk {V : Type} (v : Option V) (f : Bool)
    (cs : List (Letter × ITrie V)) : (ITrie.mk v f cs).children = cs := rfl

/-- Letters after appending one branch. -/
theorem lettersOf_append_one {V : Type} (cs : List (Letter × ITrie V)) (c : Letter)
    (b : ITrie V) : lettersOf (cs ++ [(c, b)]) = lettersOf cs ++ [c] := by
  simp [lettersOf]

/-- Appending a branch with an unused letter keeps the letters distinct. -/
theorem nodupLetters_append_new {V : Type} {cs : List (Letter × ITrie V)} {c : Letter}
    (b : ITrie V) (h : getChild cs c = none) (hn : (lettersOf cs).Nodup) :
    (lettersOf (cs ++ [(c, b)])).Nodup := by
  rw [lettersOf_append_one, List.nodup_append]
  refine ⟨hn, List.nodup_singleton c, ?_⟩
  intro x hx hmem
  simp only [List.mem_singleton] at hmem
  subst hmem
  exact (getChild_eq_none.mp h) hx

/-- The fresh node of `Wf`. -/
theorem wf_leaf {V : Type} (v : Option V) (f : Bool) : Wf (ITrie.mk v f []) := by
  rw [wf_mk_iff]
  exact ⟨by simp [lettersOf], by simp⟩

/-- A branch list `getChild` hits is not empty. -/
theorem getChild_ne_nil {V : Type} {cs : List (Letter × ITrie V)} {c : Letter} {i : Nat}
    {b : ITrie V} (h : getChild cs c = some (i, b)) : cs ≠ [] := by
  intro hcon
  rw [hcon] at h
  cases h

/-- The inner `add` starting from a fresh node never reports "exists". -/
theorem add_fresh_not_exists {V : Type} : ∀ (rs : Key) (r1 : Letter) (v : V),
    (add (ITrie.mk none false [] : ITrie V) r1 rs v).1 = false := by
  intro rs
  induction rs with
  | nil =>
    intro r1 v
    rfl
  | cons a as ih =>
    intro r1 v
    simpa only [add, children_mk, getChild] using ih a v

/-- `add` never changes the fields of the node it starts from (only the branch
list below it). -/
theorem add_root_fields {V : Type} : ∀ (rest : Key) (t : ITrie V) (c : Letter) (v : V),
    (add t c rest v).2.value = t.value ∧ (add t c rest v).2.validLeaf = t.validLeaf := by
  intro rest
  cases rest with
  | nil =>
    intro t c v
    cases hg : getChild t.children c with
    | none => simp [add, hg]
    | some q =>
      obtain ⟨qi, qb⟩ := q
      by_cases hl : qb.validLeaf
      · simp [add, hg, hl]
      · simp [add, hg, hl]
  | cons r1 rs =>
    intro t c v
    cases hg : getChild t.children c with
    | none => simp [add, hg]
    | some q =>
      obtain ⟨qi, qb⟩ := q
      simp [add, hg]

/-- The inner `add` reports "exists" exactly when the key already leads to a
valid leaf. -/
theorem add_exists_iff {V : Type} : ∀ (rest : Key) (t : ITrie V) (c : Letter) (v : V),
    (add t c rest v).1 = true ↔ ∃ n, walk t (c :: rest) = some n ∧ n.validLeaf = true := by
  intro rest
  induction rest with
  | nil =>
    intro t c v
    rw [walk_cons]
    cases hg : getChild t.children c with
    | none =>
      rw [findBr_eq_none.mpr hg]
      simp [add, hg]
    | some q =>
      obtain ⟨qi, qb⟩ := q
      rw [findBr_eq_some.mpr ⟨qi, hg⟩]
      by_cases hl : qb.validLeaf
      · simp [add, hg, hl, walk]
      · simp [add, hg, hl, walk]
  | cons r1 rs ih =>
    intro t c v
    rw [walk_cons]
    cases hg : getChild t.children c with
    | none =>
      rw [findBr_eq_none.mpr hg]
      simp [add, hg, add_fresh_not_exists]
    | some q =>
      obtain ⟨qi, qb⟩ := q
      rw [findBr_eq_some.mpr ⟨qi, hg⟩]
      simp only [add, hg, Option.some_bind]
      exact ih qb r1 v

/-- After a successful `add`, the very same key reads back the new value
through `iterTrie.get`. -/
theorem get_add_self {V : Type} : ∀ (rest : Key) (t : ITrie V) (c : Letter) (v : V),
    (add t c rest v).1 = false → get (add t c rest v).2 c rest = (some v, true) := by
  intro rest
  induction rest with
  | nil =>
    intro t c v _hok
    cases hg : getChild t.children c with
    | none =>
      have hnew := getChild_append_new (ITrie.mk (some v) true []) hg
      simp [add, hg, get, hnew]
    | some q =>
      obtain ⟨qi, qb⟩ := q
      by_cases hl : qb.validLeaf
      · simp [add, hg, hl] at _hok
      · have hset := getChild_set_same (ITrie.mk (some v) true qb.children) hg
        simp [add, hg, hl, get, hset]
  | cons r1 rs ih =>
    intro t c v hok
    cases hg : getChild t.children c with
    | none =>
      have hfr := add_fresh_not_exists (V := V) rs r1 v
      have hnew := getChild_append_new ((add (ITrie.mk none false [] : ITrie V) r1 rs v).2) hg
      simp only [add, hg, get, children_mk, hnew]
      exact ih _ r1 v hfr
    | some q =>
      obtain ⟨qi, qb⟩ := q
      simp only [add, hg] at hok
      have hset := getChild_set_same ((add qb r1 rs v).2) hg
      simp only [add, hg, get, children_mk, hset]
      exact ih qb r1 v hok

/-- A duplicate `add` leaves the tree exactly as it was. -/
theorem add_exists_unchanged {V : Type} : ∀ (rest : Key) (t : ITrie V) (c : Letter) (v : V),
    (add t c rest v).1 = true → (add t c rest v).2 = t := by
  intro rest
  induction rest with
  | nil =>
    intro t c v hex
    cases hg : getChild t.children c with
    | none => simp [add, hg] at hex
    | some q =>
      obtain ⟨qi, qb⟩ := q
      by_cases hl : qb.validLeaf
      · simp [add, hg, hl]
      · simp [add, hg, hl] at hex
  | cons r1 rs ih =>
    intro t c v hex
    cases hg : getChild t.children c with
    | none =>
      have hfr := add_fresh_not_exists (V := V) rs r1 v
      simp [add, hg, hfr] at hex
    | some q =>
      obtain ⟨qi, qb⟩ := q
      simp only [add, hg] at hex ⊢
      rw [ih qb r1 v hex, set_getChild_self hg, ITrie.eta]

/-- `Wf` inverted at an arbitrary node. -/
theorem wf_children_of {V : Type} {t : ITrie V} (h : Wf t) :
    (lettersOf t.children).Nodup ∧ ∀ p ∈ t.children, Wf p.2 := by
  obtain ⟨v, f, cs⟩ := t
  exact wf_mk_iff.mp h

/-- `NodeOk` inverted at an arbitrary node. -/
theorem nodeOk_children_of {V : Type} {t : ITrie V} (h : NodeOk t) :
    ∀ p ∈ t.children, NodeOk p.2 := by
  obtain ⟨v, f, cs⟩ := t
  exact (nodeOk_mk_iff.mp h).2

/-- A node with a branch, or a terminal childless node, satisfies `NodeOk` as
soon as its branches do. -/
theorem nodeOk_of_children {V : Type} {t : ITrie V} (h1 : ∀ p ∈ t.children, NodeOk p.2)
    (h2 : t.children ≠ []) : NodeOk t := by
  obtain ⟨v, f, cs⟩ := t
  rw [nodeOk_mk_iff]
  simp only [children_mk] at h1 h2
  exact ⟨fun hnil => absurd hnil h2, h1⟩

/-- `Wf` from distinct letters and well-formed branches. -/
theorem wf_of_children {V : Type} {t : ITrie V} (h1 : (lettersOf t.children).Nodup)
    (h2 : ∀ p ∈ t.children, Wf p.2) : Wf t := by
  obtain ⟨v, f, cs⟩ := t
  exact wf_mk_iff.mpr ⟨h1, h2⟩

/-- `add` keeps every node's sibling letters distinct. -/
theorem wf_add {V : Type} : ∀ (rest : Key) (t : ITrie V) (c : Letter) (v : V),
    Wf t → Wf (add t c rest v).2 := by
  intro rest
  induction rest with
  | nil =>
    intro t c v hwf
    have hw := wf_children_of hwf
    cases hg : getChild t.children c with
    | none =>
      have hres : (add t c [] v).2
          = ITrie.mk t.value t.validLeaf (t.children ++ [(c, ITrie.mk (some v) true [])]) := by
        simp [add, hg]
      rw [hres]
      rw [wf_mk_iff]
      refine ⟨nodupLetters_append_new _ hg hw.1, ?_⟩
      intro p hp
      rcases List.mem_append.mp hp with hp1 | hp2
      · exact hw.2 p hp1
      · simp only [List.mem_singleton] at hp2
        rw [hp2]
        exact wf_leaf _ _
    | some q =>
      obtain ⟨qi, qb⟩ := q
      by_cases hl : qb.validLeaf
      · have hres : (add t c [] v).2 = t := by
          simp [add, hg, hl]
        rw [hres]
        exact hwf
      · have hres : (add t c [] v).2
            = ITrie.mk t.value t.validLeaf
              (t.children.set qi (c, ITrie.mk (some v) true qb.children)) := by
          simp [add, hg, hl]
        rw [hres]
        rw [wf_mk_iff]
        constructor
        · rw [lettersOf_set _ hg]
          exact hw.1
        · intro p hp
          rcases List.mem_or_eq_of_mem_set hp with hp1 | hp2
          · exact hw.2 p hp1
          · rw [hp2]
            have hqb := wf_children_of (hw.2 (c, qb) (getChild_mem hg))
            exact wf_of_children hqb.1 hqb.2
  | cons r1 rs ih =>
    intro t c v hwf
    have hw := wf_children_of hwf
    cases hg : getChild t.children c with
    | none =>
      have hres : (add t c (r1 :: rs) v).2
          = ITrie.mk t.value t.validLeaf
            (t.children ++ [(c, (add (ITrie.mk none false []) r1 rs v).2)]) := by
        simp [add, hg]
      rw [hres]
      rw [wf_mk_iff]
      refine ⟨nodupLetters_append_new _ hg hw.1, ?_⟩
      intro p hp
      rcases List.mem_append.mp hp with hp1 | hp2
      · exact hw.2 p hp1
      · simp only [List.mem_singleton] at hp2
        rw [hp2]
        exact ih (ITrie.mk none false []) r1 v (wf_leaf _ _)
    | some q =>
      obtain ⟨qi, qb⟩ := q
      have hres : (add t c (r1 :: rs) v).2
          = ITrie.mk t.value t.validLeaf (t.children.set qi (c, (add qb r1 rs v).2)) := by
        simp [add, hg]
      rw [hres]
      rw [wf_mk_iff]
      constructor
      · rw [lettersOf_set _ hg]
        exact hw.1
      · intro p hp
        rcases List.mem_or_eq_of_mem_set hp with hp1 | hp2
        · exact hw.2 p hp1
        · rw [hp2]
          exact ih qb r1 v (hw.2 (c, qb) (getChild_mem hg))

/-- `add` keeps invariant I2 below the node it starts from, and always leaves
that node with at least one branch. -/
theorem add_nodeOk {V : Type} : ∀ (rest : Key) (t : ITrie V) (c : Letter) (v : V),
    (∀ p ∈ t.children, NodeOk p.2) →
    (∀ p ∈ (add t c rest v).2.children, NodeOk p.2) ∧ (add t c rest v).2.children ≠ [] := by
  intro rest
  induction rest with
  | nil =>
    intro t c v hok
    cases hg : getChild t.children c with
    | none =>
      have hres : (add t c [] v).2
          = ITrie.mk t.value t.validLeaf (t.children ++ [(c, ITrie.mk (some v) true [])]) := by
        simp [add, hg]
      rw [hres]
      simp only [children_mk]
      constructor
      · intro p hp
        rcases List.mem_append.mp hp with hp1 | hp2
        · exact hok p hp1
        · simp only [List.mem_singleton] at hp2
          rw [hp2]
          exact NodeOk.mk _ _ _ (fun _ => rfl) (by simp)
      · simp
    | some q =>
      obtain ⟨qi, qb⟩ := q
      by_cases hl : qb.validLeaf
      · have hres : (add t c [] v).2 = t := by
          simp [add, hg, hl]
        rw [hres]
        exact ⟨hok, getChild_ne_nil hg⟩
      · have hres : (add t c [] v).2
            = ITrie.mk t.value t.validLeaf
              (t.children.set qi (c, ITrie.mk (some v) true qb.children)) := by
          simp [add, hg, hl]
        rw [hres]
        simp only [children_mk]
        constructor
        · intro p hp
          rcases List.mem_or_eq_of_mem_set hp with hp1 | hp2
          · exact hok p hp1
          · rw [hp2]
            have hq := nodeOk_children_of (hok (c, qb) (getChild_mem hg))
            exact NodeOk.mk _ _ _ (fun _ => rfl) hq
        · intro hcon
          have hlen := congrArg List.length hcon
          simp at hlen
          exact getChild_ne_nil hg hlen
  | cons r1 rs ih =>
    intro t c v hok
    cases hg : getChild t.children c with
    | none =>
      have hres : (add t c (r1 :: rs) v).2
          = ITrie.mk t.value t.validLeaf
            (t.children ++ [(c, (add (ITrie.mk none false []) r1 rs v).2)]) := by
        simp [add, hg]
      rw [hres]
      simp only [children_mk]
      constructor
      · intro p hp
        rcases List.mem_append.mp hp with hp1 | hp2
        · exact hok p hp1
        · simp only [List.mem_singleton] at hp2
          rw [hp2]
          have hrec := ih (ITrie.mk none false []) r1 v (by simp)
          exact nodeOk_of_children hrec.1 hrec.2
      · simp
    | some q =>
      obtain ⟨qi, qb⟩ := q
      have hres : (add t c (r1 :: rs) v).2
          = ITrie.mk t.value t.validLeaf (t.children.set qi (c, (add qb r1 rs v).2)) := by
        simp [add, hg]
      rw [hres]
      simp only [children_mk]
      constructor
      · intro p hp
        rcases List.mem_or_eq_of_mem_set hp with hp1 | hp2
        · exact hok p hp1
        · rw [hp2]
          have hrec := ih qb r1 v (nodeOk_children_of (hok (c, qb) (getChild_mem hg)))
          exact nodeOk_of_children hrec.1 hrec.2
      · intro hcon
        have hlen := congrArg List.length hcon
        simp at hlen
        exact getChild_ne_nil hg hlen

/-- `shape` unfolded with a plain `map`. -/
theorem shape_mk {V : Type} (v : Option V) (f : Bool) (cs : List (Letter × ITrie V)) :
    shape (ITrie.mk v f cs) = ITrie.mk none f (cs.map (fun p => (p.1, shape p.2))) := by
  rw [shape, List.attach_map_coe cs (fun p => (p.1, shape p.2))]

/-- `findBr` after `List.set` at the found index, same letter. -/
theorem findBr_set_same {V : Type} {cs : List (Letter × ITrie V)} {c : Letter} {i : Nat}
    {b : ITrie V} (b' : ITrie V) (h : getChild cs c = some (i, b)) :
    findBr (cs.set i (c, b')) c = some b' :=
  findBr_eq_some.mpr ⟨i, getChild_set_same b' h⟩

/-- `findBr` after `List.set` at the found index, other letters. -/
theorem findBr_set_other {V : Type} {cs : List (Letter × ITrie V)} {c d : Letter} {i : Nat}
    {b : ITrie V} (b' : ITrie V) (h : getChild cs c = some (i, b)) (hd : d ≠ c) :
    findBr (cs.set i (c, b')) d = findBr cs d := by
  unfold findBr
  rw [getChild_set_other b' h hd]

/-- `update` never changes the fields of the node it starts from. -/
theorem update_root_fields {V : Type} (rest : Key) (t : ITrie V) (c : Letter) (v : V) :
    (update t c rest v).2.value = t.value ∧ (update t c rest v).2.validLeaf = t.validLeaf := by
  cases rest with
  | nil =>
    cases hg : getChild t.children c with
    | none => simp [update, hg]
    | some q =>
      obtain ⟨qi, qb⟩ := q
      by_cases hl : qb.validLeaf
      · simp [update, hg, hl]
      · simp [update, hg, hl]
  | cons r1 rs =>
    cases hg : getChild t.children c with
    | none => simp [update, hg]
    | some q =>
      obtain ⟨qi, qb⟩ := q
      by_cases hres : (update qb r1 rs v).1
      · simp [update, hg, hres]
      · simp [update, hg, hres]

/-- A failed `update` leaves the tree exactly as it was. -/
theorem update_fail_unchanged {V : Type} (rest : Key) (t : ITrie V) (c : Letter) (v : V)
    (h : (update t c rest v).1 = false) : (update t c rest v).2 = t := by
  cases rest with
  | nil =>
    cases hg : getChild t.children c with
    | none => simp [update, hg]
    | some q =>
      obtain ⟨qi, qb⟩ := q
      by_cases hl : qb.validLeaf
      · simp [update, hg, hl] at h
      · simp [update, hg, hl]
  | cons r1 rs =>
    cases hg : getChild t.children c with
    | none => simp [update, hg]
    | some q =>
      obtain ⟨qi, qb⟩ := q
      by_cases hres : (update qb r1 rs v).1
      · simp [update, hg, hres] at h
      · simp [update, hg, hres]

/-- The inner `update` succeeds exactly when the key leads to a valid leaf. -/
theorem update_ok_iff {V : Type} : ∀ (rest : Key) (t : ITrie V) (c : Letter) (v : V),
    (update t c rest v).1 = true ↔ ∃ n, walk t (c :: rest) = some n ∧ n.validLeaf = true := by
  intro rest
  induction rest with
  | nil =>
    intro t c v
    rw [walk_cons]
    cases hg : getChild t.children c with
    | none =>
      rw [findBr_eq_none.mpr hg]
      simp [update, hg]
    | some q =>
      obtain ⟨qi, qb⟩ := q
      rw [findBr_eq_some.mpr ⟨qi, hg⟩]
      by_cases hl : qb.validLeaf
      · simp [update, hg, hl, walk]
      · simp [update, hg, hl, walk]
  | cons r1 rs ih =>
    intro t c v
    rw [walk_cons]
    cases hg : getChild t.children c with
    | none =>
      rw [findBr_eq_none.mpr hg]
      simp [update, hg]
    | some q =>
      obtain ⟨qi, qb⟩ := q
      rw [findBr_eq_some.mpr ⟨qi, hg⟩]
      have hfst : (update t c (r1 :: rs) v).1 = (update qb r1 rs v).1 := by
        by_cases hres : (update qb r1 rs v).1
        · simp [update, hg, hres]
        · simp [update, hg, hres]
      rw [hfst, Option.some_bind]
      exact ih qb r1 v

/-- A successful `update` found a branch for the first letter. -/
theorem update_ok_getChild {V : Type} {rest : Key} {t : ITrie V} {c : Letter} {v : V}
    (h : (update t c rest v).1 = true) : ∃ q, getChild t.children c = some q := by
  cases rest with
  | nil =>
    cases hg : getChild t.children c with
    | none => simp [update, hg] at h
    | some q => exact ⟨q, rfl⟩
  | cons r1 rs =>
    cases hg : getChild t.children c with
    | none => simp [update, hg] at h
    | some q => exact ⟨q, rfl⟩

/-- After a successful `update`, the same key leads to a valid leaf holding the
new value. -/
theorem update_walkGet_self {V : Type} : ∀ (rest : Key) (t : ITrie V) (c : Letter) (v : V),
    (update t c rest v).1 = true → walkGet (update t c rest v).2 (c :: rest) = (some v, true) := by
  intro rest
  induction rest with
  | nil =>
    intro t c v hok
    cases hg : getChild t.children c with
    | none => simp [update, hg] at hok
    | some q =>
      obtain ⟨qi, qb⟩ := q
      by_cases hl : qb.validLeaf
      · have hres : (update t c [] v).2
            = ITrie.mk t.value t.validLeaf
              (t.children.set qi (c, ITrie.mk (some v) qb.validLeaf qb.children)) := by
          simp [update, hg, hl]
        rw [hres, walkGet_cons]
        simp only [children_mk]
        rw [findBr_set_same _ hg]
        simp [walkGet_nil, hl]
      · simp [update, hg, hl] at hok
  | cons r1 rs ih =>
    intro t c v hok
    cases hg : getChild t.children c with
    | none => simp [update, hg] at hok
    | some q =>
      obtain ⟨qi, qb⟩ := q
      by_cases hres : (update qb r1 rs v).1
      · have hr2 : (update t c (r1 :: rs) v).2
            = ITrie.mk t.value t.validLeaf (t.children.set qi (c, (update qb r1 rs v).2)) := by
          simp [update, hg, hres]
        rw [hr2, walkGet_cons]
        simp only [children_mk]
        rw [findBr_set_same _ hg]
        simpa using ih qb r1 v hres
      · simp [update, hg, hres] at hok

/-- `update` leaves the lookup of every other key exactly as it was. -/
theorem update_walkGet_frame {V : Type} :
    ∀ (rest : Key) (t : ITrie V) (c : Letter) (v : V) (k' : Key), k' ≠ c :: rest →
    walkGet (update t c rest v).2 k' = walkGet t k' := by
  intro rest
  induction rest with
  | nil =>
    intro t c v k' hk
    by_cases hok : (update t c [] v).1 = true
    · cases hg : getChild t.children c with
      | none => simp [update, hg] at hok
      | some q =>
        obtain ⟨qi, qb⟩ := q
        by_cases hl : qb.validLeaf
        · have hres : (update t c [] v).2
              = ITrie.mk t.value t.validLeaf
                (t.children.set qi (c, ITrie.mk (some v) qb.validLeaf qb.children)) := by
            simp [update, hg, hl]
          rw [hres]
          cases k' with
          | nil => simp [walkGet_nil]
          | cons d ds =>
            rw [walkGet_cons, walkGet_cons]
            simp only [children_mk]
            by_cases hd : d = c
            · subst hd
              have hds : ds ≠ [] := by
                intro hcon
                exact hk (by rw [hcon])
              rw [findBr_set_same _ hg, findBr_eq_some.mpr ⟨qi, hg⟩]
              simp only [Option.map_some', Option.getD_some]
              cases ds with
              | nil => exact absurd rfl hds
              | cons e es =>
                rw [walkGet_cons, walkGet_cons]
                simp
            · rw [findBr_set_other _ hg hd]
        · simp [update, hg, hl] at hok
    · rw [update_fail_unchanged _ _ _ _ (by simpa using hok)]
  | cons r1 rs ih =>
    intro t c v k' hk
    by_cases hok : (update t c (r1 :: rs) v).1 = true
    · cases hg : getChild t.children c with
      | none => simp [update, hg] at hok
      | some q =>
        obtain ⟨qi, qb⟩ := q
        have hres : (update qb r1 rs v).1 = true := by
          by_contra hcon
          simp [update, hg, Bool.of_not_eq_true hcon] at hok
        have hr2 : (update t c (r1 :: rs) v).2
            = ITrie.mk t.value t.validLeaf (t.children.set qi (c, (update qb r1 rs v).2)) := by
          simp [update, hg, hres]
        rw [hr2]
        cases k' with
        | nil => simp [walkGet_nil]
        | cons d ds =>
          rw [walkGet_cons, walkGet_cons]
          simp only [children_mk]
          by_cases hd : d = c
          · subst hd
            have hds : ds ≠ r1 :: rs := by
              intro hcon
              exact hk (by rw [hcon])
            rw [findBr_set_same _ hg, findBr_eq_some.mpr ⟨qi, hg⟩]
            simp only [Option.map_some', Option.getD_some]
            exact ih qb r1 v ds hds
          · rw [findBr_set_other _ hg hd]
    · rw [update_fail_unchanged _ _ _ _ (by simpa using hok)]

/-- `update` keeps every node's sibling letters distinct. -/
theorem wf_update {V : Type} : ∀ (rest : Key) (t : ITrie V) (c : Letter) (v : V),
    Wf t → Wf (update t c rest v).2 := by
  intro rest
  induction rest with
  | nil =>
    intro t c v hwf
    have hw := wf_children_of hwf
    cases hg : getChild t.children c with
    | none =>
      have : (update t c [] v).2 = t := by simp [update, hg]
      rw [this]
      exact hwf
    | some q =>
      obtain ⟨qi, qb⟩ := q
      by_cases hl : qb.validLeaf
      · have hres : (update t c [] v).2
            = ITrie.mk t.value t.validLeaf
              (t.children.set qi (c, ITrie.mk (some v) qb.validLeaf qb.children)) := by
          simp [update, hg, hl]
        rw [hres, wf_mk_iff]
        constructor
        · rw [lettersOf_set _ hg]
          exact hw.1
        · intro p hp
          rcases List.mem_or_eq_of_mem_set hp with hp1 | hp2
          · exact hw.2 p hp1
          · rw [hp2]
            have hqb := wf_children_of (hw.2 (c, qb) (getChild_mem hg))
            exact wf_of_children hqb.1 hqb.2
      · have : (update t c [] v).2 = t := by simp [update, hg, hl]
        rw [this]
        exact hwf
  | cons r1 rs ih =>
    intro t c v hwf
    have hw := wf_children_of hwf
    cases hg : getChild t.children c with
    | none =>
      have : (update t c (r1 :: rs) v).2 = t := by simp [update, hg]
      rw [this]
      exact hwf
    | some q =>
      obtain ⟨qi, qb⟩ := q
      by_cases hres : (update qb r1 rs v).1
      · have hr2 : (update t c (r1 :: rs) v).2
            = ITrie.mk t.value t.validLeaf (t.children.set qi (c, (update qb r1 rs v).2)) := by
          simp [update, hg, hres]
        rw [hr2, wf_mk_iff]
        constructor
        · rw [lettersOf_set _ hg]
          exact hw.1
        · intro p hp
          rcases List.mem_or_eq_of_mem_set hp with hp1 | hp2
          · exact hw.2 p hp1
          · rw [hp2]
            exact ih qb r1 v (hw.2 (c, qb) (getChild_mem hg))
      · have : (update t c (r1 :: rs) v).2 = t := by simp [update, hg, hres]
        rw [this]
        exact hwf

/-- `update` keeps the number of branches of the node it starts from. -/
theorem update_children_length {V : Type} (rest : Key) (t : ITrie V) (c : Letter) (v : V) :
    (update t c rest v).2.children.length = t.children.length := by
  cases rest with
  | nil =>
    cases hg : getChild t.children c with
    | none => simp [update, hg]
    | some q =>
      obtain ⟨qi, qb⟩ := q
      by_cases hl : qb.validLeaf
      · simp [update, hg, hl]
      · simp [update, hg, hl]
  | cons r1 rs =>
    cases hg : getChild t.children c with
    | none => simp [update, hg]
    | some q =>
      obtain ⟨qi, qb⟩ := q
      by_cases hres : (update qb r1 rs v).1
      · simp [update, hg, hres]
      · simp [update, hg, hres]

/-- `update` keeps invariant I2 below the node it starts from. -/
theorem update_nodeOk {V : Type} : ∀ (rest : Key) (t : ITrie V) (c : Letter) (v : V),
    (∀ p ∈ t.children, NodeOk p.2) → ∀ p ∈ (update t c rest v).2.children, NodeOk p.2 := by
  intro rest
  induction rest with
  | nil =>
    intro t c v hok
    cases hg : getChild t.children c with
    | none =>
      have : (update t c [] v).2 = t := by simp [update, hg]
      rw [this]
      exact hok
    | some q =>
      obtain ⟨qi, qb⟩ := q
      by_cases hl : qb.validLeaf
      · have hres : (update t c [] v).2
            = ITrie.mk t.value t.validLeaf
              (t.children.set qi (c, ITrie.mk (some v) qb.validLeaf qb.children)) := by
          simp [update, hg, hl]
        rw [hres]
        simp only [children_mk]
        intro p hp
        rcases List.mem_or_eq_of_mem_set hp with hp1 | hp2
        · exact hok p hp1
        · rw [hp2]
          have hq := nodeOk_children_of (hok (c, qb) (getChild_mem hg))
          exact NodeOk.mk _ _ _ (fun _ => by rw [hl]) hq
      · have : (update t c [] v).2 = t := by simp [update, hg, hl]
        rw [this]
        exact hok
  | cons r1 rs ih =>
    intro t c v hok
    cases hg : getChild t.children c with
    | none =>
      have : (update t c (r1 :: rs) v).2 = t := by simp [update, hg]
      rw [this]
      exact hok
    | some q =>
      obtain ⟨qi, qb⟩ := q
      by_cases hres : (update qb r1 rs v).1
      · have hr2 : (update t c (r1 :: rs) v).2
            = ITrie.mk t.value t.validLeaf (t.children.set qi (c, (update qb r1 rs v).2)) := by
          simp [update, hg, hres]
        rw [hr2]
        simp only [children_mk]
        intro p hp
        rcases List.mem_or_eq_of_mem_set hp with hp1 | hp2
        · exact hok p hp1
        · rw [hp2]
          have hin := ih qb r1 v (nodeOk_children_of (hok (c, qb) (getChild_mem hg)))
          refine nodeOk_of_children hin ?_
          obtain ⟨hq2, hgq⟩ := update_ok_getChild hres
          have hlen := update_children_length rs qb r1 v
          intro hcon
          rw [hcon] at hlen
          simp at hlen
          exact getChild_ne_nil hgq (List.length_eq_zero.mp hlen.symm)
      · have : (update t c (r1 :: rs) v).2 = t := by simp [update, hg, hres]
        rw [this]
        exact hok

/-- `update` never changes the shape of the tree: no node or edge appears or
disappears and no terminal flag changes. -/
theorem update_shape {V : Type} : ∀ (rest : Key) (t : ITrie V) (c : Letter) (v : V),
    shape (update t c rest v).2 = shape t := by
  intro rest
  induction rest with
  | nil =>
    intro t c v
    cases hg : getChild t.children c with
    | none =>
      have : (update t c [] v).2 = t := by simp [update, hg]
      rw [this]
    | some q =>
      obtain ⟨qi, qb⟩ := q
      by_cases hl : qb.validLeaf
      · have hres : (update t c [] v).2
            = ITrie.mk t.value t.validLeaf
              (t.children.set qi (c, ITrie.mk (some v) qb.validLeaf qb.children)) := by
          simp [update, hg, hl]
        rw [hres]
        obtain ⟨tv, tf, tcs⟩ := t
        simp only [children_mk, value_mk, validLeaf_mk] at hg ⊢
        rw [shape_mk, shape_mk]
        congr 1
        rw [List.map_set]
        have hsh : shape (ITrie.mk (some v) qb.validLeaf qb.children) = shape qb := by
          obtain ⟨bv, bf, bcs⟩ := qb
          rw [shape_mk, shape_mk]
          simp
        simp only [hsh]
        have := congrArg (List.map (fun p : Letter × ITrie V => (p.1, shape p.2)))
          (set_getChild_self hg)
        rw [List.map_set] at this
        exact this
      · have : (update t c [] v).2 = t := by simp [update, hg, hl]
        rw [this]
  | cons r1 rs ih =>
    intro t c v
    cases hg : getChild t.children c with
    | none =>
      have : (update t c (r1 :: rs) v).2 = t := by simp [update, hg]
      rw [this]
    | some q =>
      obtain ⟨qi, qb⟩ := q
      by_cases hres : (update qb r1 rs v).1
      · have hr2 : (update t c (r1 :: rs) v).2
            = ITrie.mk t.value t.validLeaf (t.children.set qi (c, (update qb r1 rs v).2)) := by
          simp [update, hg, hres]
        rw [hr2]
        obtain ⟨tv, tf, tcs⟩ := t
        simp only [children_mk, value_mk, validLeaf_mk] at hg ⊢
        rw [shape_mk, shape_mk]
        congr 1
        rw [List.map_set]
        simp only [ih qb r1 v]
        have := congrArg (List.map (fun p : Letter × ITrie V => (p.1, shape p.2)))
          (set_getChild_self hg)
        rw [List.map_set] at this
        exact this
      · have : (update t c (r1 :: rs) v).2 = t := by simp [update, hg, hres]
        rw [this]

/-- `NodeOk` from the childless-terminal condition and the branches. -/
theorem nodeOk_of_parts {V : Type} {t : ITrie V} (h1 : t.children = [] → t.validLeaf = true)
    (h2 : ∀ p ∈ t.children, NodeOk p.2) : NodeOk t := by
  obtain ⟨v, f, cs⟩ := t
  rw [nodeOk_mk_iff]
  exact ⟨by simpa using h1, h2⟩

/-- The verdict of `remove` on a longer key is the verdict one level down. -/
theorem remove_fst_cons {V : Type} {t : ITrie V} {c : Letter} {qi : Nat} {qb : ITrie V}
    (r1 : Letter) (rs : Key) (hg : getChild t.children c = some (qi, qb)) :
    (remove t c (r1 :: rs)).1 = (remove qb r1 rs).1 := by
  by_cases hrok : (remove qb r1 rs).1 = true
  · by_cases hdead :
      (!(remove qb r1 rs).2.validLeaf && (remove qb r1 rs).2.children.isEmpty) = true
    · simp [remove, hg, hrok, hdead]
    · simp [remove, hg, hrok, Bool.of_not_eq_true hdead]
  · simp [remove, hg, Bool.of_not_eq_true hrok]

/-- `remove` never changes the fields of the node it starts from. -/
theorem remove_root_fields {V : Type} (rest : Key) (t : ITrie V) (c : Letter) :
    (remove t c rest).2.value = t.value ∧ (remove t c rest).2.validLeaf = t.validLeaf := by
  cases rest with
  | nil =>
    cases hg : getChild t.children c with
    | none => simp [remove, hg]
    | some q =>
      obtain ⟨qi, qb⟩ := q
      by_cases hl : qb.validLeaf
      · by_cases he : qb.children.isEmpty
        · simp [remove, hg, hl, he]
        · simp [remove, hg, hl, Bool.of_not_eq_true he]
      · simp [remove, hg, hl]
  | cons r1 rs =>
    cases hg : getChild t.children c with
    | none => simp [remove, hg]
    | some q =>
      obtain ⟨qi, qb⟩ := q
      by_cases hrok : (remove qb r1 rs).1 = true
      · by_cases hdead :
          (!(remove qb r1 rs).2.validLeaf && (remove qb r1 rs).2.children.isEmpty) = true
        · simp [remove, hg, hrok, hdead]
        · simp [remove, hg, hrok, Bool.of_not_eq_true hdead]
      · simp [remove, hg, Bool.of_not_eq_true hrok]

/-- A failed `remove` leaves the tree exactly as it was. -/
theorem remove_fail_unchanged {V : Type} (rest : Key) (t : ITrie V) (c : Letter)
    (h : (remove t c rest).1 = false) : (remove t c rest).2 = t := by
  cases rest with
  | nil =>
    cases hg : getChild t.children c with
    | none => simp [remove, hg]
    | some q =>
      obtain ⟨qi, qb⟩ := q
      by_cases hl : qb.validLeaf
      · by_cases he : qb.children.isEmpty
        · simp [remove, hg, hl, he] at h
        · simp [remove, hg, hl, Bool.of_not_eq_true he] at h
      · simp [remove, hg, hl]
  | cons r1 rs =>
    cases hg : getChild t.children c with
    | none => simp [remove, hg]
    | some q =>
      obtain ⟨qi, qb⟩ := q
      by_cases hrok : (remove qb r1 rs).1 = true
      · rw [remove_fst_cons r1 rs hg] at h
        rw [hrok] at h
        cases h
      · simp [remove, hg, Bool.of_not_eq_true hrok]

/-- The inner `remove` succeeds exactly when the key leads to a valid leaf. -/
theorem remove_ok_iff {V : Type} : ∀ (rest : Key) (t : ITrie V) (c : Letter),
    (remove t c rest).1 = true ↔ ∃ n, walk t (c :: rest) = some n ∧ n.validLeaf = true := by
  intro rest
  induction rest with
  | nil =>
    intro t c
    rw [walk_cons]
    cases hg : getChild t.children c with
    | none =>
      rw [findBr_eq_none.mpr hg]
      simp [remove, hg]
    | some q =>
      obtain ⟨qi, qb⟩ := q
      rw [findBr_eq_some.mpr ⟨qi, hg⟩]
      by_cases hl : qb.validLeaf
      · by_cases he : qb.children.isEmpty
        · simp [remove, hg, hl, he, walk]
        · simp [remove, hg, hl, Bool.of_not_eq_true he, walk]
      · simp [remove, hg, hl, walk]
  | cons r1 rs ih =>
    intro t c
    rw [walk_cons]
    cases hg : getChild t.children c with
    | none =>
      rw [findBr_eq_none.mpr hg]
      simp [remove, hg]
    | some q =>
      obtain ⟨qi, qb⟩ := q
      rw [findBr_eq_some.mpr ⟨qi, hg⟩, remove_fst_cons r1 rs hg, Option.some_bind]
      exact ih qb r1

/-- Distinct letters survive the swap-with-last removal. -/
theorem nodupLetters_removeSwap {V : Type} {cs : List (Letter × ITrie V)} {c : Letter}
    {i : Nat} {b : ITrie V} (h : getChild cs c = some (i, b))
    (hn : (lettersOf cs).Nodup) : (lettersOf (removeSwapIdx cs i)).Nodup := by
  have hnerase : (lettersOf (cs.eraseIdx i)).Nodup :=
    (lettersOf_eraseIdx_sublist cs i).nodup hn
  exact ((lettersOf_removeSwapIdx_perm cs i (getChild_lt h)).nodup_iff).mpr hnerase

/-- After a successful `remove`, the node the key still leads to (if any) has
its terminal flag and value cleared. -/
theorem remove_cleared {V : Type} : ∀ (rest : Key) (t : ITrie V) (c : Letter),
    Wf t → (remove t c rest).1 = true →
    ∀ n, walk (remove t c rest).2 (c :: rest) = some n →
      n.validLeaf = false ∧ n.value = none := by
  intro rest
  induction rest with
  | nil =>
    intro t c hwf hok n hwalk
    cases hg : getChild t.children c with
    | none => simp [remove, hg] at hok
    | some q =>
      obtain ⟨qi, qb⟩ := q
      by_cases hl : qb.validLeaf
      · by_cases he : qb.children.isEmpty
        · have hres : (remove t c []).2
              = ITrie.mk t.value t.validLeaf (removeSwapIdx t.children qi) := by
            simp [remove, hg, hl, he]
          rw [hres, walk_cons] at hwalk
          simp only [children_mk] at hwalk
          rw [findBr_removeSwap_self hg (wf_children_of hwf).1] at hwalk
          simp at hwalk
        · have hres : (remove t c []).2
              = ITrie.mk t.value t.validLeaf
                (t.children.set qi (c, ITrie.mk none false qb.children)) := by
            simp [remove, hg, hl, Bool.of_not_eq_true he]
          rw [hres, walk_cons] at hwalk
          simp only [children_mk] at hwalk
          rw [findBr_set_same _ hg] at hwalk
          simp only [Option.some_bind, walk] at hwalk
          injection hwalk with hn2
          rw [← hn2]
          exact ⟨rfl, rfl⟩
      · simp [remove, hg, hl] at hok
  | cons r1 rs ih =>
    intro t c hwf hok n hwalk
    cases hg : getChild t.children c with
    | none => simp [remove, hg] at hok
    | some q =>
      obtain ⟨qi, qb⟩ := q
      have hrok : (remove qb r1 rs).1 = true := by
        rw [← remove_fst_cons r1 rs hg]
        exact hok
      by_cases hdead :
          (!(remove qb r1 rs).2.validLeaf && (remove qb r1 rs).2.children.isEmpty) = true
      · have hres : (remove t c (r1 :: rs)).2
            = ITrie.mk t.value t.validLeaf (removeSwapIdx t.children qi) := by
          simp [remove, hg, hrok, hdead]
        rw [hres, walk_cons] at hwalk
        simp only [children_mk] at hwalk
        rw [findBr_removeSwap_self hg (wf_children_of hwf).1] at hwalk
        simp at hwalk
      · have hres : (remove t c (r1 :: rs)).2
            = ITrie.mk t.value t.validLeaf
              (t.children.set qi (c, (remove qb r1 rs).2)) := by
          simp [remove, hg, hrok, Bool.of_not_eq_true hdead]
        rw [hres, walk_cons] at hwalk
        simp only [children_mk] at hwalk
        rw [findBr_set_same _ hg] at hwalk
        simp only [Option.some_bind] at hwalk
        have hwqb : Wf qb := (wf_children_of hwf).2 (c, qb) (getChild_mem hg)
        exact ih qb r1 hwqb hrok n hwalk

/-- A dead node answers not-found for every key. -/
theorem walkGet_dead {V : Type} {d : ITrie V} (hf : d.validLeaf = false)
    (hc : d.children = []) (ds : Key) : walkGet d ds = (none, false) := by
  cases ds with
  | nil => simp [walkGet_nil, hf]
  | cons e es =>
    rw [walkGet_cons, hc]
    simp [findBr, getChild]

/-- `remove` leaves the lookup of every other key exactly as it was. -/
theorem remove_walkGet_frame {V : Type} : ∀ (rest : Key) (t : ITrie V) (c : Letter),
    Wf t → ∀ k', k' ≠ c :: rest → walkGet (remove t c rest).2 k' = walkGet t k' := by
  intro rest
  induction rest with
  | nil =>
    intro t c hwf k' hk
    by_cases hok : (remove t c []).1 = true
    · cases hg : getChild t.children c with
      | none => simp [remove, hg] at hok
      | some q =>
        obtain ⟨qi, qb⟩ := q
        by_cases hl : qb.validLeaf
        · by_cases he : qb.children.isEmpty
          · have hres : (remove t c []).2
                = ITrie.mk t.value t.validLeaf (removeSwapIdx t.children qi) := by
              simp [remove, hg, hl, he]
            rw [hres]
            cases k' with
            | nil => simp [walkGet_nil]
            | cons d ds =>
              rw [walkGet_cons, walkGet_cons]
              simp only [children_mk]
              by_cases hd : d = c
              · subst hd
                rw [findBr_removeSwap_self hg (wf_children_of hwf).1,
                  findBr_eq_some.mpr ⟨qi, hg⟩]
                have hds : ds ≠ [] := fun hcon => hk (by rw [hcon])
                cases ds with
                | nil => exact absurd rfl hds
                | cons e es =>
                  simp only [Option.map_none', Option.getD_none, Option.map_some',
                    Option.getD_some]
                  rw [walkGet_cons, List.isEmpty_iff.mp he]
                  simp [findBr, getChild]
              · rw [findBr_removeSwap_other hg (wf_children_of hwf).1 hd]
          · have hres : (remove t c []).2
                = ITrie.mk t.value t.validLeaf
                  (t.children.set qi (c, ITrie.mk none false qb.children)) := by
              simp [remove, hg, hl, Bool.of_not_eq_true he]
            rw [hres]
            cases k' with
            | nil => simp [walkGet_nil]
            | cons d ds =>
              rw [walkGet_cons, walkGet_cons]
              simp only [children_mk]
              by_cases hd : d = c
              · subst hd
                rw [findBr_set_same _ hg, findBr_eq_some.mpr ⟨qi, hg⟩]
                simp only [Option.map_some', Option.getD_some]
                have hds : ds ≠ [] := fun hcon => hk (by rw [hcon])
                cases ds with
                | nil => exact absurd rfl hds
                | cons e es =>
                  rw [walkGet_cons, walkGet_cons]
                  simp
              · rw [findBr_set_other _ hg hd]
        · simp [remove, hg, hl] at hok
    · rw [remove_fail_unchanged _ _ _ (by simpa using hok)]
  | cons r1 rs ih =>
    intro t c hwf k' hk
    by_cases hok : (remove t c (r1 :: rs)).1 = true
    · cases hg : getChild t.children c with
      | none => simp [remove, hg] at hok
      | some q =>
        obtain ⟨qi, qb⟩ := q
        have hrok : (remove qb r1 rs).1 = true := by
          rw [← remove_fst_cons r1 rs hg]
          exact hok
        have hwqb : Wf qb := (wf_children_of hwf).2 (c, qb) (getChild_mem hg)
        by_cases hdead :
            (!(remove qb r1 rs).2.validLeaf && (remove qb r1 rs).2.children.isEmpty) = true
        · have hflag : (remove qb r1 rs).2.validLeaf = false := by
            cases hfv : (remove qb r1 rs).2.validLeaf
            · rfl
            · rw [hfv] at hdead
              simp at hdead
          have hch : (remove qb r1 rs).2.children = [] := by
            rw [hflag] at hdead
            simp at hdead
            exact hdead
          have hres : (remove t c (r1 :: rs)).2
              = ITrie.mk t.value t.validLeaf (removeSwapIdx t.children qi) := by
            simp [remove, hg, hrok, hdead]
          rw [hres]
          cases k' with
          | nil => simp [walkGet_nil]
          | cons d ds =>
            rw [walkGet_cons, walkGet_cons]
            simp only [children_mk]
            by_cases hd : d = c
            · subst hd
              rw [findBr_removeSwap_self hg (wf_children_of hwf).1,
                findBr_eq_some.mpr ⟨qi, hg⟩]
              have hds : ds ≠ r1 :: rs := fun hcon => hk (by rw [hcon])
              have hih := ih qb r1 hwqb ds hds
              rw [walkGet_dead hflag hch ds] at hih
              simp only [Option.map_some', Option.getD_some, Option.map_none',
                Option.getD_none]
              exact hih
            · rw [findBr_removeSwap_other hg (wf_children_of hwf).1 hd]
        · have hres : (remove t c (r1 :: rs)).2
              = ITrie.mk t.value t.validLeaf
                (t.children.set qi (c, (remove qb r1 rs).2)) := by
            simp [remove, hg, hrok, Bool.of_not_eq_true hdead]
          rw [hres]
          cases k' with
          | nil => simp [walkGet_nil]
          | cons d ds =>
            rw [walkGet_cons, walkGet_cons]
            simp only [children_mk]
            by_cases hd : d = c
            · subst hd
              rw [findBr_set_same _ hg, findBr_eq_some.mpr ⟨qi, hg⟩]
              simp only [Option.map_some', Option.getD_some]
              have hds : ds ≠ r1 :: rs := fun hcon => hk (by rw [hcon])
              exact ih qb r1 hwqb ds hds
            · rw [findBr_set_other _ hg hd]
    · rw [remove_fail_unchanged _ _ _ (by simpa using hok)]

/-- `remove` keeps every node's sibling letters distinct. -/
theorem wf_remove {V : Type} : ∀ (rest : Key) (t : ITrie V) (c : Letter),
    Wf t → Wf (remove t c rest).2 := by
  intro rest
  induction rest with
  | nil =>
    intro t c hwf
    have hw := wf_children_of hwf
    cases hg : getChild t.children c with
    | none =>
      have hres : (remove t c []).2 = t := by simp [remove, hg]
      rw [hres]
      exact hwf
    | some q =>
      obtain ⟨qi, qb⟩ := q
      by_cases hl : qb.validLeaf
      · by_cases he : qb.children.isEmpty
        · have hres : (remove t c []).2
              = ITrie.mk t.value t.validLeaf (removeSwapIdx t.children qi) := by
            simp [remove, hg, hl, he]
          rw [hres, wf_mk_iff]
          refine ⟨nodupLetters_removeSwap hg hw.1, ?_⟩
          intro p hp
          exact hw.2 p (mem_removeSwapIdx (getChild_lt hg) hp)
        · have hres : (remove t c []).2
              = ITrie.mk t.value t.validLeaf
                (t.children.set qi (c, ITrie.mk none false qb.children)) := by
            simp [remove, hg, hl, Bool.of_not_eq_true he]
          rw [hres, wf_mk_iff]
          constructor
          · rw [lettersOf_set _ hg]
            exact hw.1
          · intro p hp
            rcases List.mem_or_eq_of_mem_set hp with hp1 | hp2
            · exact hw.2 p hp1
            · rw [hp2]
              have hqb := wf_children_of (hw.2 (c, qb) (getChild_mem hg))
              exact wf_of_children hqb.1 hqb.2
      · have hres : (remove t c []).2 = t := by simp [remove, hg, hl]
        rw [hres]
        exact hwf
  | cons r1 rs ih =>
    intro t c hwf
    have hw := wf_children_of hwf
    cases hg : getChild t.children c with
    | none =>
      have hres : (remove t c (r1 :: rs)).2 = t := by simp [remove, hg]
      rw [hres]
      exact hwf
    | some q =>
      obtain ⟨qi, qb⟩ := q
      by_cases hrok : (remove qb r1 rs).1 = true
      · by_cases hdead :
            (!(remove qb r1 rs).2.validLeaf && (remove qb r1 rs).2.children.isEmpty) = true
        · have hres : (remove t c (r1 :: rs)).2
              = ITrie.mk t.value t.validLeaf (removeSwapIdx t.children qi) := by
            simp [remove, hg, hrok, hdead]
          rw [hres, wf_mk_iff]
          refine ⟨nodupLetters_removeSwap hg hw.1, ?_⟩
          intro p hp
          exact hw.2 p (mem_removeSwapIdx (getChild_lt hg) hp)
        · have hres : (remove t c (r1 :: rs)).2
              = ITrie.mk t.value t.validLeaf
                (t.children.set qi (c, (remove qb r1 rs).2)) := by
            simp [remove, hg, hrok, Bool.of_not_eq_true hdead]
          rw [hres, wf_mk_iff]
          constructor
          · rw [lettersOf_set _ hg]
            exact hw.1
          · intro p hp
            rcases List.mem_or_eq_of_mem_set hp with hp1 | hp2
            · exact hw.2 p hp1
            · rw [hp2]
              exact ih qb r1 (hw.2 (c, qb) (getChild_mem hg))
      · have hres : (remove t c (r1 :: rs)).2 = t := by
          simp [remove, hg, Bool.of_not_eq_true hrok]
        rw [hres]
        exact hwf

/-- `remove` keeps invariant I2 below the node it starts from: the compaction
loop prunes exactly the nodes that died. -/
theorem remove_nodeOk {V : Type} : ∀ (rest : Key) (t : ITrie V) (c : Letter),
    (∀ p ∈ t.children, NodeOk p.2) → ∀ p ∈ (remove t c rest).2.children, NodeOk p.2 := by
  intro rest
  induction rest with
  | nil =>
    intro t c hok
    cases hg : getChild t.children c with
    | none =>
      have hres : (remove t c []).2 = t := by simp [remove, hg]
      rw [hres]
      exact hok
    | some q =>
      obtain ⟨qi, qb⟩ := q
      by_cases hl : qb.validLeaf
      · by_cases he : qb.children.isEmpty
        · have hres : (remove t c []).2
              = ITrie.mk t.value t.validLeaf (removeSwapIdx t.children qi) := by
            simp [remove, hg, hl, he]
          rw [hres]
          simp only [children_mk]
          intro p hp
          exact hok p (mem_removeSwapIdx (getChild_lt hg) hp)
        · have hres : (remove t c []).2
              = ITrie.mk t.value t.validLeaf
                (t.children.set qi (c, ITrie.mk none false qb.children)) := by
            simp [remove, hg, hl, Bool.of_not_eq_true he]
          rw [hres]
          simp only [children_mk]
          intro p hp
          rcases List.mem_or_eq_of_mem_set hp with hp1 | hp2
          · exact hok p hp1
          · rw [hp2]
            refine nodeOk_of_parts ?_ (by
              simpa using nodeOk_children_of (hok (c, qb) (getChild_mem hg)))
            intro hcon
            simp only [children_mk] at hcon
            rw [hcon] at he
            exact absurd rfl he
      · have hres : (remove t c []).2 = t := by simp [remove, hg, hl]
        rw [hres]
        exact hok
  | cons r1 rs ih =>
    intro t c hok
    cases hg : getChild t.children c with
    | none =>
      have hres : (remove t c (r1 :: rs)).2 = t := by simp [remove, hg]
      rw [hres]
      exact hok
    | some q =>
      obtain ⟨qi, qb⟩ := q
      by_cases hrok : (remove qb r1 rs).1 = true
      · by_cases hdead :
            (!(remove qb r1 rs).2.validLeaf && (remove qb r1 rs).2.children.isEmpty) = true
        · have hres : (remove t c (r1 :: rs)).2
              = ITrie.mk t.value t.validLeaf (removeSwapIdx t.children qi) := by
            simp [remove, hg, hrok, hdead]
          rw [hres]
          simp only [children_mk]
          intro p hp
          exact hok p (mem_removeSwapIdx (getChild_lt hg) hp)
        · have hres : (remove t c (r1 :: rs)).2
              = ITrie.mk t.value t.validLeaf
                (t.children.set qi (c, (remove qb r1 rs).2)) := by
            simp [remove, hg, hrok, Bool.of_not_eq_true hdead]
          rw [hres]
          simp only [children_mk]
          intro p hp
          rcases List.mem_or_eq_of_mem_set hp with hp1 | hp2
          · exact hok p hp1
          · rw [hp2]
            refine nodeOk_of_parts ?_
              (ih qb r1 (nodeOk_children_of (hok (c, qb) (getChild_mem hg))))
            intro hcon
            cases hfv : (remove qb r1 rs).2.validLeaf
            · exfalso
              apply hdead
              rw [hfv, hcon]
              rfl
            · rfl
      · have hres : (remove t c (r1 :: rs)).2 = t := by
          simp [remove, hg, Bool.of_not_eq_true hrok]
        rw [hres]
        exact hok

/-- A frame with cursor `0` still contributes its node's whole subtree. -/
theorem collectFrom_zero {V : Type} (t : ITrie V) : collectFrom 0 t = collect t := by
  obtain ⟨v, f, cs⟩ := t
  rw [collectFrom, collect_mk]
  simp

/-- A frame whose cursor has passed the children only contributes its own
value. -/
theorem collectFrom_done {V : Type} (i : Nat) (t : ITrie V)
    (h : ¬i < t.children.length) :
    collectFrom i t = if t.validLeaf then [t.value] else [] := by
  rw [collectFrom, List.drop_eq_nil_of_le (Nat.le_of_not_lt h)]
  simp

/-- Splitting a frame at its cursor: the child's whole subtree, then the rest
of the frame. -/
theorem collectFrom_step {V : Type} (i : Nat) (t : ITrie V) (h : i < t.children.length) :
    collectFrom i t = collect (t.children.get ⟨i, h⟩).2 ++ collectFrom (i + 1) t := by
  rw [collectFrom, collectFrom]
  have hdrop : t.children.drop i = t.children.get ⟨i, h⟩ :: t.children.drop (i + 1) := by
    rw [List.get_eq_getElem]
    exact (List.getElem_cons_drop _ _ h).symm
  rw [hdrop, List.map_cons, List.flatten_cons, List.append_assoc]

/-- Pushing a child frame shrinks the weight of the search stack. -/
theorem stackW_push_lt {V : Type} (i : Nat) (t : ITrie V) (rest : List (Nat × ITrie V))
    (h : i < t.children.length) :
    stackW ((0, (t.children.get ⟨i, h⟩).2) :: (i + 1, t) :: rest) < stackW ((i, t) :: rest) := by
  simp only [stackW, frameW, List.map_cons, List.sum_cons]
  have hdrop : t.children.drop i = t.children.get ⟨i, h⟩ :: t.children.drop (i + 1) := by
    rw [List.get_eq_getElem]
    exact (List.getElem_cons_drop _ _ h).symm
  rw [hdrop]
  rcases hg : t.children.get ⟨i, h⟩ with ⟨l, b⟩
  simp only [List.map_cons, List.sum_cons, List.drop_zero]
  cases b with
  | mk bv bf bcs =>
    rw [size]
    have haux : (bcs.attach.map (fun p => size p.1.2)).sum
        = (bcs.map (fun p => size p.2)).sum := by
      rw [List.attach_map_coe bcs (fun p => size p.2)]
    simp only [children_mk]
    omega

/-- Popping a frame shrinks the weight of the search stack. -/
theorem stackW_pop_lt {V : Type} (i : Nat) (t : ITrie V) (rest : List (Nat × ITrie V)) :
    stackW rest < stackW ((i, t) :: rest) := by
  simp only [stackW, frameW, List.map_cons, List.sum_cons]
  omega

/-- The depth-first loop delivers, after the results already gathered, the
contribution of every frame of the stack, top first. -/
theorem searchLoop_eq {V : Type} (st : List (Nat × ITrie V)) (res : List (Option V)) :
    searchLoop st res = res ++ (st.map (fun f => collectFrom f.1 f.2)).flatten := by
  cases st with
  | nil => simp [searchLoop]
  | cons f rest =>
    obtain ⟨i, t⟩ := f
    by_cases h : i < t.children.length
    · rw [searchLoop]
      rw [dif_pos h]
      rw [searchLoop_eq ((0, (t.children.get ⟨i, h⟩).2) :: (i + 1, t) :: rest) res]
      simp only [List.map_cons, List.flatten_cons, collectFrom_zero]
      rw [collectFrom_step i t h]
      simp [List.append_assoc]
    · rw [searchLoop]
      rw [dif_neg h]
      rw [searchLoop_eq rest (res ++ if t.validLeaf then [t.value] else [])]
      simp only [List.map_cons, List.flatten_cons]
      rw [collectFrom_done i t h]
      simp [List.append_assoc]
termination_by stackW st
decreasing_by
  · apply stackW_push_lt
  · apply stackW_pop_lt

/-- The search loop started on one frame enumerates the subtree of that
frame's node, children first. -/
theorem searchLoop_single {V : Type} (root : ITrie V) :
    searchLoop [(0, root)] [] = collect root := by
  rw [searchLoop_eq]
  simp [collectFrom_zero]

/-- The values the loop emits are the stored values of the subtree, in the
order of `kvList`. -/
theorem collect_eq_kvList {V : Type} : ∀ t : ITrie V, collect t = (kvList t).map Prod.snd := by
  refine inductionOn ?_
  intro v f cs ih
  rw [collect_mk, kvList_mk]
  rw [List.map_append, List.map_flatten, List.map_map]
  congr 1
  · congr 1
    apply List.map_congr_left
    intro p hp
    simp only [Function.comp]
    rw [ih p hp, List.map_map]
    rfl
  · cases f <;> simp

/-- Filtering distributes over flattening. -/
theorem filter_flatten {V : Type} (f : Key × Option V → Bool)
    (L : List (List (Key × Option V))) :
    L.flatten.filter f = (L.map (List.filter f)).flatten := by
  induction L with
  | nil => rfl
  | cons x xs ih => simp [List.filter_append, ih]

/-- A block of a letter other than the head of the sought prefix contributes
nothing to the filtered listing. -/
theorem block_filter_other {V : Type} {c l : Letter} (hne : l ≠ c) (q : Key)
    (L : List (Key × Option V)) :
    (L.map (fun kv => ((l :: kv.1 : Key), kv.2))).filter
      (fun kv => (c :: q).isPrefixOf kv.1) = [] := by
  rw [List.filter_eq_nil_iff]
  intro kv hkv
  rcases List.mem_map.mp hkv with ⟨kv0, _, hkv0⟩
  rw [← hkv0]
  simp only [List.isPrefixOf]
  have : (c == l) = false := by
    simp only [beq_eq_false_iff_ne, ne_eq]
    exact fun hcl => hne hcl.symm
  simp [this]

/-- The block of the letter at the head of the sought prefix filters to the
block of the prefix's tail. -/
theorem block_filter_same {V : Type} (c : Letter) (q : Key) (L : List (Key × Option V)) :
    (L.map (fun kv => ((c :: kv.1 : Key), kv.2))).filter
      (fun kv => (c :: q).isPrefixOf kv.1)
      = (L.filter (fun kv => q.isPrefixOf kv.1)).map
          (fun kv => ((c :: kv.1 : Key), kv.2)) := by
  rw [List.filter_map]
  congr 1
  apply List.filter_congr
  intro kv _
  simp only [Function.comp]
  simp [List.isPrefixOf]

/-- Blocks of letters all different from the head of the sought prefix filter
to nothing. -/
theorem blocks_filter_none {V : Type} {c : Letter} (q : Key)
    (cs : List (Letter × ITrie V)) (hno : c ∉ lettersOf cs) :
    ((cs.map (fun pb => (kvList pb.2).map (fun kv => ((pb.1 :: kv.1 : Key), kv.2)))).flatten).filter
      (fun kv => (c :: q).isPrefixOf kv.1) = [] := by
  induction cs with
  | nil => rfl
  | cons p ps ih =>
    simp only [lettersOf, List.map_cons, List.mem_cons] at hno
    push_neg at hno
    simp only [List.map_cons, List.flatten_cons, List.filter_append]
    rw [block_filter_other (fun hpc => hno.1 hpc.symm) q, List.nil_append]
    exact ih (by simpa [lettersOf] using hno.2)

/-- A list is a prefix of itself, in the Boolean sense of the source's walk. -/
theorem isPrefixOf_self_eq (k : Key) : k.isPrefixOf k = true := by
  induction k with
  | nil => rfl
  | cons c cs ih => simp [List.isPrefixOf, ih]

/-- The empty key is a prefix of every key, in the Boolean sense. -/
theorem nil_isPrefixOf_eq (l : Key) : ([] : Key).isPrefixOf l = true := by
  cases l <;> rfl

/-- Filtering the whole listing by a prefix beginning with `c` keeps only the
block of the branch of `c`, filtered by the tail of the prefix. -/
theorem blocks_filter {V : Type} (c : Letter) (q : Key) (cs : List (Letter × ITrie V))
    (hn : (lettersOf cs).Nodup) :
    ((cs.map (fun pb => (kvList pb.2).map (fun kv => ((pb.1 :: kv.1 : Key), kv.2)))).flatten).filter
      (fun kv => (c :: q).isPrefixOf kv.1)
      = (findBr cs c).elim []
          (fun b => ((kvList b).filter (fun kv => q.isPrefixOf kv.1)).map
            (fun kv => ((c :: kv.1 : Key), kv.2))) := by
  induction cs with
  | nil => rfl
  | cons p ps ih =>
    obtain ⟨pl, pb⟩ := p
    rw [nodupLetters_cons] at hn
    simp only [List.map_cons, List.flatten_cons, List.filter_append]
    by_cases hc : pl = c
    · subst hc
      rw [findBr_cons, if_pos rfl, block_filter_same pl q]
      rw [blocks_filter_none q ps (by simpa [lettersOf] using hn.1)]
      simp
    · rw [findBr_cons, if_neg hc, block_filter_other hc q, List.nil_append]
      exact ih hn.2

/-- Filtering the stored bindings by a prefix is walking the prefix and
re-rooting: the bindings of the subtree the prefix leads to, with the prefix
put back in front. -/
theorem kvList_filter_walk {V : Type} : ∀ (p : Key) (t : ITrie V), Wf t →
    (kvList t).filter (fun kv => p.isPrefixOf kv.1)
      = (walk t p).elim [] (fun s => (kvList s).map (fun kv => ((p ++ kv.1 : Key), kv.2))) := by
  intro p
  induction p with
  | nil =>
    intro t _hwf
    rw [walk]
    simp only [Option.elim_some, List.nil_append]
    rw [List.filter_eq_self.mpr (fun kv _ => nil_isPrefixOf_eq kv.1)]
    have : (fun kv : Key × Option V => ((kv.1 : Key), kv.2)) = id := by
      funext kv
      rfl
    rw [this, List.map_id]
  | cons c q ih =>
    intro t hwf
    obtain ⟨tv, tf, tcs⟩ := t
    have hw := wf_mk_iff.mp hwf
    rw [kvList_mk, List.filter_append, filter_flatten]
    have hifp : ((if tf = true then [(([] : Key), tv)] else []).filter
        (fun kv => (c :: q).isPrefixOf kv.1)) = [] := by
      cases tf <;> simp [List.isPrefixOf]
    rw [hifp, List.append_nil, ← filter_flatten]
    rw [blocks_filter c q tcs hw.1]
    rw [walk_cons]
    simp only [children_mk]
    cases hf : findBr tcs c with
    | none => rfl
    | some b =>
      have hbmem : (c, b) ∈ tcs := by
        rcases findBr_eq_some.mp hf with ⟨i, hi⟩
        exact getChild_mem hi
      simp only [Option.elim_some, Option.some_bind]
      rw [ih b (hw.2 (c, b) hbmem)]
      cases hwb : walk b q with
      | none => rfl
      | some s =>
        simp only [Option.elim_some, List.map_map]
        rfl

/-- The empty key is listed exactly at a terminal root. -/
theorem kvList_nil_mem {V : Type} (t : ITrie V) (v : Option V) :
    (([] : Key), v) ∈ kvList t ↔ t.validLeaf = true ∧ t.value = v := by
  obtain ⟨tv, tf, tcs⟩ := t
  rw [kvList_mk]
  simp only [List.mem_append, validLeaf_mk, value_mk]
  constructor
  · rintro (hin | hin)
    · exfalso
      rcases List.mem_flatten.mp hin with ⟨blk, hblk, hkv⟩
      rcases List.mem_map.mp hblk with ⟨pb, _, hpb⟩
      rw [← hpb] at hkv
      rcases List.mem_map.mp hkv with ⟨kv0, _, hkv0⟩
      cases hkv0
    · cases tf with
      | false => cases hin
      | true =>
        simp only [if_true, List.mem_singleton] at hin
        injection hin with h1 h2
        exact ⟨rfl, h2.symm⟩
  · rintro ⟨hf, hv⟩
    right
    rw [hf, hv]
    simp

/-- A binding is stored exactly when `trie.Get`-style lookup of its key finds
its value. -/
theorem kvList_mem_iff_walkGet {V : Type} (t : ITrie V) (k : Key) (v : Option V)
    (hwf : Wf t) : ((k, v) ∈ kvList t) ↔ walkGet t k = (v, true) := by
  have hfilter := kvList_filter_walk k t hwf
  have hmem : (k, v) ∈ kvList t ↔ (k, v) ∈ (kvList t).filter (fun kv => k.isPrefixOf kv.1) := by
    constructor
    · intro h
      exact List.mem_filter.mpr ⟨h, isPrefixOf_self_eq k⟩
    · intro h
      exact (List.mem_filter.mp h).1
  rw [hmem, hfilter, walkGet]
  cases hwk : walk t k with
  | none => simp
  | some s =>
    simp only [Option.elim_some, List.mem_map]
    constructor
    · rintro ⟨kv0, hkv0, heq⟩
      injection heq with h1 h2
      have hk1 : kv0.1 = [] := by
        have hlen := congrArg List.length h1
        simp at hlen
        exact hlen
      have hnilmem : (([] : Key), v) ∈ kvList s := by
        rw [← hk1, ← h2]
        exact hkv0
      rcases (kvList_nil_mem s v).mp hnilmem with ⟨hf, hv⟩
      simp [hf, hv]
    · intro h
      by_cases hf : s.validLeaf = true
      · rw [if_pos hf] at h
        injection h with h1 _h2
        refine ⟨(([] : Key), v), ?_, by simp⟩
        exact (kvList_nil_mem s v).mpr ⟨hf, by rw [h1]⟩
      · rw [if_neg hf] at h
        injection h with _h1 h2
        cases h2

/-- Every reachable state keeps sibling letters distinct (invariant I3). -/
theorem reachable_wf {V : Type} {t : ITrie V} (h : Reachable t) : Wf t := by
  induction h with
  | empty => exact wf_emptyT
  | add t k v _ ih =>
    cases k with
    | nil => exact ih
    | cons c rest => exact wf_add rest t c v ih
  | remove t k _ ih =>
    cases k with
    | nil => exact ih
    | cons c rest =>
      rw [removeT]
      simp only [RemoveP]
      exact wf_remove rest t c ih
  | update t k v _ ih =>
    cases k with
    | nil => exact ih
    | cons c rest =>
      rw [updateT]
      simp only [UpdateP]
      exact wf_update rest t c v ih

/-- Every reachable state satisfies invariant I2: no non-root node is
childless and non-terminal. -/
theorem reachable_rootOk {V : Type} {t : ITrie V} (h : Reachable t) : RootOk t := by
  induction h with
  | empty =>
    intro p hp
    cases hp
  | add t k v _ ih =>
    cases k with
    | nil => exact ih
    | cons c rest =>
      intro p hp
      exact (add_nodeOk rest t c v ih).1 p hp
  | remove t k _ ih =>
    cases k with
    | nil => exact ih
    | cons c rest =>
      rw [removeT]
      simp only [RemoveP]
      intro p hp
      exact remove_nodeOk rest t c ih p hp
  | update t k v _ ih =>
    cases k with
    | nil => exact ih
    | cons c rest =>
      rw [updateT]
      simp only [UpdateP]
      intro p hp
      exact update_nodeOk rest t c v ih p hp

/-- A reachable root is never terminal: `Add` rejects the empty key, and no
operation marks the root. -/
theorem reachable_root_not_terminal {V : Type} {t : ITrie V} (h : Reachable t) :
    t.validLeaf = false := by
  induction h with
  | empty => rfl
  | add t k v _ ih =>
    cases k with
    | nil => exact ih
    | cons c rest =>
      rw [addT]
      simp only [AddP]
      rw [(add_root_fields rest t c v).2]
      exact ih
  | remove t k _ ih =>
    cases k with
    | nil => exact ih
    | cons c rest =>
      rw [removeT]
      simp only [RemoveP]
      rw [(remove_root_fields rest t c).2]
      exact ih
  | update t k v _ ih =>
    cases k with
    | nil => exact ih
    | cons c rest =>
      rw [updateT]
      simp only [UpdateP]
      rw [(update_root_fields rest t c v).2]
      exact ih

/-- The fuelled image of the `add` loop needs one unit of fuel per letter. -/
theorem addF_complete {V : Type} : ∀ (rest : Key) (n : Nat) (t : ITrie V) (c : Letter) (v : V),
    rest.length < n → addF n t c rest v = some (add t c rest v) := by
  intro rest
  induction rest with
  | nil =>
    intro n t c v hn
    obtain ⟨m, rfl⟩ : ∃ m, n = m + 1 := ⟨n - 1, by omega⟩
    cases hg : getChild t.children c with
    | none => simp [addF, add, hg]
    | some q =>
      obtain ⟨qi, qb⟩ := q
      by_cases hl : qb.validLeaf
      · simp [addF, add, hg, hl]
      · simp [addF, add, hg, hl]
  | cons r1 rs ih =>
    intro n t c v hn
    obtain ⟨m, rfl⟩ : ∃ m, n = m + 1 := ⟨n - 1, by omega⟩
    have hm : rs.length < m := by
      simp only [List.length_cons] at hn
      omega
    cases hg : getChild t.children c with
    | none => simp [addF, add, hg, ih m _ r1 v hm]
    | some q =>
      obtain ⟨qi, qb⟩ := q
      simp [addF, add, hg, ih m qb r1 v hm]

/-- The fuelled image of the `get` loop needs one unit of fuel per letter. -/
theorem getF_complete {V : Type} : ∀ (rest : Key) (n : Nat) (t : ITrie V) (c : Letter),
    rest.length < n → getF n t c rest = some (get t c rest) := by
  intro rest
  induction rest with
  | nil =>
    intro n t c hn
    obtain ⟨m, rfl⟩ : ∃ m, n = m + 1 := ⟨n - 1, by omega⟩
    cases hg : getChild t.children c with
    | none => simp [getF, get, hg]
    | some q =>
      obtain ⟨qi, qb⟩ := q
      simp [getF, get, hg]
  | cons r1 rs ih =>
    intro n t c hn
    obtain ⟨m, rfl⟩ : ∃ m, n = m + 1 := ⟨n - 1, by omega⟩
    have hm : rs.length < m := by
      simp only [List.length_cons] at hn
      omega
    cases hg : getChild t.children c with
    | none => simp [getF, get, hg]
    | some q =>
      obtain ⟨qi, qb⟩ := q
      simp [getF, get, hg, ih m qb r1 hm]

/-- The fuelled image of the `update` loop needs one unit of fuel per
letter. -/
theorem updateF_complete {V : Type} : ∀ (rest : Key) (n : Nat) (t : ITrie V) (c : Letter)
    (v : V), rest.length < n → updateF n t c rest v = some (update t c rest v) := by
  intro rest
  induction rest with
  | nil =>
    intro n t c v hn
    obtain ⟨m, rfl⟩ : ∃ m, n = m + 1 := ⟨n - 1, by omega⟩
    cases hg : getChild t.children c with
    | none => simp [updateF, update, hg]
    | some q =>
      obtain ⟨qi, qb⟩ := q
      by_cases hl : qb.validLeaf
      · simp [updateF, update, hg, hl]
      · simp [updateF, update, hg, hl]
  | cons r1 rs ih =>
    intro n t c v hn
    obtain ⟨m, rfl⟩ : ∃ m, n = m + 1 := ⟨n - 1, by omega⟩
    have hm : rs.length < m := by
      simp only [List.length_cons] at hn
      omega
    cases hg : getChild t.children c with
    | none => simp [updateF, update, hg]
    | some q =>
      obtain ⟨qi, qb⟩ := q
      simp [updateF, update, hg, ih m qb r1 v hm]

/-- The fuelled image of the `remove` walk needs one unit of fuel per
letter. -/
theorem removeF_complete {V : Type} : ∀ (rest : Key) (n : Nat) (t : ITrie V) (c : Letter),
    rest.length < n → removeF n t c rest = some (remove t c rest) := by
  intro rest
  induction rest with
  | nil =>
    intro n t c hn
    obtain ⟨m, rfl⟩ : ∃ m, n = m + 1 := ⟨n - 1, by omega⟩
    cases hg : getChild t.children c with
    | none => simp [removeF, remove, hg]
    | some q =>
      obtain ⟨qi, qb⟩ := q
      by_cases hl : qb.validLeaf
      · by_cases he : qb.children.isEmpty
        · simp [removeF, remove, hg, hl, he]
        · simp [removeF, remove, hg, hl, Bool.of_not_eq_true he]
      · simp [removeF, remove, hg, hl]
  | cons r1 rs ih =>
    intro n t c hn
    obtain ⟨m, rfl⟩ : ∃ m, n = m + 1 := ⟨n - 1, by omega⟩
    have hm : rs.length < m := by
      simp only [List.length_cons] at hn
      omega
    cases hg : getChild t.children c with
    | none => simp [removeF, remove, hg]
    | some q =>
      obtain ⟨qi, qb⟩ := q
      simp [removeF, remove, hg, ih m qb r1 hm]

/-- The fuelled image of the depth-first loop completes within the weight of
its starting stack: the loop terminates, visiting each node at most once. -/
theorem searchLoopF_complete {V : Type} : ∀ (n : Nat) (st : List (Nat × ITrie V))
    (res : List (Option V)), stackW st ≤ n → searchLoopF n st res = some (searchLoop st res) := by
  intro n
  induction n with
  | zero =>
    intro st res hle
    cases st with
    | nil => simp [searchLoopF, searchLoop]
    | cons f rest =>
      exfalso
      obtain ⟨i, t⟩ := f
      have := stackW_pop_lt i t rest
      omega
  | succ m ih =>
    intro st res hle
    cases st with
    | nil => simp [searchLoopF, searchLoop]
    | cons f rest =>
      obtain ⟨i, t⟩ := f
      by_cases h : i < t.children.length
      · rw [searchLoopF, searchLoop]
        rw [dif_pos h, dif_pos h]
        apply ih
        have := stackW_push_lt i t rest h
        omega
      · rw [searchLoopF, searchLoop]
        rw [dif_neg h, dif_neg h]
        apply ih
        have := stackW_pop_lt i t rest
        omega

/-- C1: the claim says `Get` answers `(value, true)` only when the final node
of the path is terminal.  `trie.Get` does check the flag, but `iterTrie.get`
returns `(value, true)` for any node the path reaches: on the tree holding
only the key `[97, 98]`, `Get [97]` hits the pure branching point for `97`
(not terminal, flag `false`) and still answers `(nil, true)`, where `trie.Get`
answers not-found. -/
theorem C1_iterGet_branching_point :
    (walk (addT (emptyT : ITrie Nat) [97, 98] 5) [97]).map ITrie.validLeaf = some false
    ∧ GetP (addT (emptyT : ITrie Nat) [97, 98] 5) [97] = (none, true)
    ∧ trieGet (addT (emptyT : ITrie Nat) [97, 98] 5) [97] = (none, false) :=
  ⟨rfl, rfl, rfl⟩

/-- C2: on every reachable state, `Search p` returns exactly the values of the
stored bindings whose key extends the prefix `p` — each binding once, in the
depth-first order of the loop.  The empty prefix keeps every binding, and a
prefix whose path is missing filters everything out. -/
theorem C2_search_lists_stored_values {V : Type} (t : ITrie V) (p : Key)
    (h : Reachable t) :
    SearchP t p = ((kvList t).filter (fun kv => p.isPrefixOf kv.1)).map Prod.snd := by
  have hwf := reachable_wf h
  rw [kvList_filter_walk p t hwf]
  cases hwk : walk t p with
  | none =>
    simp only [Option.elim_none, List.map_nil]
    simp only [SearchP, hwk]
  | some root =>
    simp only [Option.elim_some]
    simp only [SearchP, hwk]
    rw [searchLoop_single, collect_eq_kvList, List.map_map]
    rfl

/-- C2 witness: the two-key state `sampleT` with the prefix `[0]`. -/
theorem C2_search_witness :
    Reachable sampleT
    ∧ SearchP sampleT [0]
        = ((kvList sampleT).filter (fun kv => [0].isPrefixOf kv.1)).map Prod.snd :=
  ⟨Reachable.add _ _ _ (Reachable.add _ _ _ Reachable.empty),
    C2_search_lists_stored_values sampleT [0]
      (Reachable.add _ _ _ (Reachable.add _ _ _ Reachable.empty))⟩

/-- C3 counterexample: on the empty key the claim demands a `KeyNotFound`
failure with the tree unchanged, but `iterTrie.remove` indexes its stack at
`-1` and panics (modelled by `none`). -/
theorem C3_remove_empty_cex :
    RemoveP (emptyT : ITrie Nat) [] = none
    ∧ RemoveP (emptyT : ITrie Nat) [] ≠ some (some Err.keyNotFound, emptyT) :=
  ⟨rfl, fun h => Option.noConfusion h⟩

/-- C3 (amended to non-empty keys): on a reachable state, `Remove k` succeeds
exactly when `k` leads to a valid leaf; on success the final node's flag and
value are cleared, a `trie.Get` of `k` then answers not-found, every other
stored binding is kept with its value, and invariant I2 holds (dead nodes were
pruned; the root is never pruned — only branch lists of surviving nodes
change); on failure it reports `KeyNotFound` and returns the tree unchanged. -/
theorem C3_remove_spec {V : Type} (t : ITrie V) (k : Key) (hr : Reachable t)
    (hk : k ≠ []) :
    ∃ e t', RemoveP t k = some (e, t')
      ∧ ((e = none) ↔ ∃ n, walk t k = some n ∧ n.validLeaf = true)
      ∧ (e = none →
          trieGet t' k = (none, false)
          ∧ (∀ n, walk t' k = some n → n.validLeaf = false ∧ n.value = none)
          ∧ (∀ k' v', k' ≠ k → (((k', v') ∈ kvList t') ↔ ((k', v') ∈ kvList t)))
          ∧ (∀ k', k' ≠ k → trieGet t' k' = trieGet t k')
          ∧ RootOk t')
      ∧ (e ≠ none → e = some Err.keyNotFound ∧ t' = t) := by
  cases k with
  | nil => exact absurd rfl hk
  | cons c rest =>
    have hwf := reachable_wf hr
    have hwf2 := wf_remove rest t c hwf
    by_cases hok : (remove t c rest).1 = true
    · refine ⟨none, (remove t c rest).2, by simp [RemoveP, hok], ?_, ?_, ?_⟩
      · simp only [true_iff]
        exact (remove_ok_iff rest t c).mp hok
      · intro _
        refine ⟨?_, remove_cleared rest t c hwf hok, ?_, ?_, ?_⟩
        · rw [trieGet_eq_walkGet _ _ (by simp), walkGet]
          cases hwk : walk (remove t c rest).2 (c :: rest) with
          | none => rfl
          | some n =>
            have hcl := remove_cleared rest t c hwf hok n hwk
            simp [hcl.1]
        · intro k' v' hne
          rw [kvList_mem_iff_walkGet _ _ _ hwf2, kvList_mem_iff_walkGet _ _ _ hwf,
            remove_walkGet_frame rest t c hwf k' hne]
        · intro k' hne
          cases k' with
          | nil => rfl
          | cons d ds =>
            rw [trieGet_eq_walkGet _ _ (by simp), trieGet_eq_walkGet _ _ (by simp),
              remove_walkGet_frame rest t c hwf (d :: ds) hne]
        · intro p hp
          exact remove_nodeOk rest t c (reachable_rootOk hr) p hp
      · intro hcon
        exact absurd rfl hcon
    · have hfail : (remove t c rest).1 = false := Bool.of_not_eq_true hok
      refine ⟨some Err.keyNotFound, t, ?_, ?_, ?_, ?_⟩
      · simp [RemoveP, hfail, remove_fail_unchanged rest t c hfail]
      · constructor
        · intro hcon
          cases hcon
        · intro hex
          exact absurd ((remove_ok_iff rest t c).mpr hex) hok
      · intro hcon
        cases hcon
      · intro _
        exact ⟨rfl, rfl⟩

/-- C3 witness: removing the stored key `[0]` from the two-key state
`sampleT`. -/
theorem C3_remove_witness :
    Reachable sampleT ∧ (([0] : Key) ≠ [])
    ∧ (∃ e t', RemoveP sampleT [0] = some (e, t')
      ∧ ((e = none) ↔ ∃ n, walk sampleT [0] = some n ∧ n.validLeaf = true)
      ∧ (e = none →
          trieGet t' [0] = (none, false)
          ∧ (∀ n, walk t' [0] = some n → n.validLeaf = false ∧ n.value = none)
          ∧ (∀ k' v', k' ≠ [0] → (((k', v') ∈ kvList t') ↔ ((k', v') ∈ kvList sampleT)))
          ∧ (∀ k', k' ≠ [0] → trieGet t' k' = trieGet sampleT k')
          ∧ RootOk t')
      ∧ (e ≠ none → e = some Err.keyNotFound ∧ t' = sampleT)) :=
  ⟨Reachable.add _ _ _ (Reachable.add _ _ _ Reachable.empty),
    by simp,
    C3_remove_spec sampleT [0]
      (Reachable.add _ _ _ (Reachable.add _ _ _ Reachable.empty)) (by simp)⟩

/-- C4: every state the five public operations can produce satisfies invariant
I2 — every node other than the root with no branch is terminal.  `Get` and
`Search` are read-only in the embedding, and `Reachable` closes the states
under `Add`, `Remove` and `Update`, failed calls included, so no operation
lets a dead leaf survive. -/
theorem C4_no_dead_leaves {V : Type} (t : ITrie V) (h : Reachable t) : RootOk t :=
  reachable_rootOk h

/-- C4 witness: the state after removing `[0]` from `sampleT` is compact. -/
theorem C4_no_dead_leaves_witness :
    Reachable (removeT sampleT [0]) ∧ RootOk (removeT sampleT [0]) :=
  ⟨Reachable.remove _ _ (Reachable.add _ _ _ (Reachable.add _ _ _ Reachable.empty)),
    C4_no_dead_leaves _
      (Reachable.remove _ _ (Reachable.add _ _ _ (Reachable.add _ _ _ Reachable.empty)))⟩

/-- C5: the claim says `Remove ""` fails with `KeyNotFound` without crashing;
in `iterTrie.remove` (and the second `trie.Remove`) the walk loop never runs
on the empty key, `tip` stays `-1`, and `branch[tip]` is evaluated: an
index-out-of-range runtime panic, which the embedding renders as `none` — for
every tree, reachable or not. -/
theorem C5_remove_empty_key_panics {V : Type} (t : ITrie V) : RemoveP t [] = none := rfl

/-- C6 counterexample: `trie.Update` with the empty key answers `EmptyKey`,
not the `KeyNotFound` the claim requires. -/
theorem C6_update_empty_cex :
    trieUpdate (emptyT : ITrie Nat) [] 0 = (some Err.emptyKey, emptyT)
    ∧ some Err.emptyKey ≠ some Err.keyNotFound :=
  ⟨rfl, by decide⟩

/-- C6 (amended): both `trie.go` variants of `Update` guard the empty key with
the `EmptyKey` error and leave the tree unmodified; the iterative variant's
inner `update` instead evaluates `r[0]` on the empty slice and panics
(modelled by `none`). -/
theorem C6_update_empty_key {V : Type} (t : ITrie V) (v : V) :
    trieUpdate t [] v = (some Err.emptyKey, t) ∧ UpdateP t [] v = none :=
  ⟨rfl, rfl⟩

/-- C7 counterexample: the empty key is not present (both `Get`s report
not-found), yet `Add "" v` fails with `EmptyKey` instead of succeeding, so the
round-trip claim fails at the empty key. -/
theorem C7_roundtrip_cex :
    GetP (emptyT : ITrie Nat) [] = (none, false)
    ∧ trieGet (emptyT : ITrie Nat) [] = (none, false)
    ∧ AddP (emptyT : ITrie Nat) [] 7 = (some Err.emptyKey, emptyT) :=
  ⟨rfl, rfl, rfl⟩

/-- C7 (amended to non-empty keys): if `k` is non-empty and not stored
(`trie.Get` reports not-found), `Add k v` succeeds and `Get k` afterwards
answers `(v, true)`. -/
theorem C7_roundtrip {V : Type} (t : ITrie V) (k : Key) (v : V) (hk : k ≠ [])
    (habs : (trieGet t k).2 = false) :
    (AddP t k v).1 = none ∧ GetP (addT t k v) k = (some v, true) := by
  cases k with
  | nil => exact absurd rfl hk
  | cons c rest =>
    have hnot : ¬(add t c rest v).1 = true := by
      intro hex
      rcases (add_exists_iff rest t c v).mp hex with ⟨n, hwk, hfl⟩
      rw [trieGet_eq_walkGet _ _ (by simp), walkGet] at habs
      simp [hwk, hfl] at habs
    have hfa : (add t c rest v).1 = false := Bool.of_not_eq_true hnot
    constructor
    · simp [AddP, hfa]
    · rw [addT]
      simp only [AddP, GetP]
      exact get_add_self rest t c v hfa

/-- C7 witness: adding `[0]` to the fresh trie. -/
theorem C7_roundtrip_witness :
    (([0] : Key) ≠ []) ∧ (trieGet (emptyT : ITrie Nat) [0]).2 = false
    ∧ ((AddP (emptyT : ITrie Nat) [0] 7).1 = none
        ∧ GetP (addT (emptyT : ITrie Nat) [0] 7) [0] = (some 7, true)) :=
  ⟨by simp, rfl, C7_roundtrip emptyT [0] 7 (by simp) rfl⟩

/-- C8: adding a key that is already stored (with value `v1`) fails with the
duplicate-key error, returns the very same tree, and `Get` still answers
`(v1, true)`. -/
theorem C8_duplicate_add {V : Type} (t : ITrie V) (k : Key) (v1 : V) (v2 : V)
    (hst : trieGet t k = (some v1, true)) :
    AddP t k v2 = (some Err.duplicateKey, t) ∧ GetP t k = (some v1, true) := by
  cases k with
  | nil =>
    exfalso
    rw [trieGet] at hst
    injection hst with _h1 h2
    cases h2
  | cons c rest =>
    rw [trieGet_eq_walkGet _ _ (by simp), walkGet] at hst
    have hterm : ∃ n, walk t (c :: rest) = some n ∧ n.validLeaf = true
        ∧ n.value = some v1 := by
      cases hwk : walk t (c :: rest) with
      | none =>
        simp only [hwk] at hst
        injection hst with _h1 h2
        cases h2
      | some n =>
        simp only [hwk] at hst
        by_cases hfl : n.validLeaf = true
        · rw [if_pos hfl] at hst
          injection hst with h1 _h2
          exact ⟨n, rfl, hfl, h1⟩
        · rw [if_neg hfl] at hst
          injection hst with _h1 h2
          cases h2
    rcases hterm with ⟨n, hwk, hfl, hv⟩
    have hex : (add t c rest v2).1 = true := (add_exists_iff rest t c v2).mpr ⟨n, hwk, hfl⟩
    constructor
    · have hun := add_exists_unchanged rest t c v2 hex
      simp [AddP, hex, hun]
    · rw [GetP, get_eq_walk, hwk]
      simp [hv]

/-- C8 witness: re-adding the stored key `[0]`. -/
theorem C8_duplicate_add_witness :
    trieGet (addT (emptyT : ITrie Nat) [0] 1) [0] = (some 1, true)
    ∧ (AddP (addT (emptyT : ITrie Nat) [0] 1) [0] 2
        = (some Err.duplicateKey, addT (emptyT : ITrie Nat) [0] 1)
      ∧ GetP (addT (emptyT : ITrie Nat) [0] 1) [0] = (some 1, true)) :=
  ⟨rfl, C8_duplicate_add (addT (emptyT : ITrie Nat) [0] 1) [0] 1 2 rfl⟩

/-- C9: updating a stored key succeeds, changes no node, edge or terminal
flag (the shape is untouched), stores the new value at the key, and leaves the
lookup of every other key unchanged. -/
theorem C9_update_in_place {V : Type} (t : ITrie V) (k : Key) (v : V)
    (hst : (trieGet t k).2 = true) :
    ∃ t', UpdateP t k v = some (none, t')
      ∧ shape t' = shape t
      ∧ trieGet t' k = (some v, true)
      ∧ (∀ k', k' ≠ k → trieGet t' k' = trieGet t k') := by
  cases k with
  | nil =>
    rw [trieGet] at hst
    cases hst
  | cons c rest =>
    have hterm : ∃ n, walk t (c :: rest) = some n ∧ n.validLeaf = true := by
      rw [trieGet_eq_walkGet _ _ (by simp), walkGet] at hst
      cases hwk : walk t (c :: rest) with
      | none =>
        simp only [hwk] at hst
        cases hst
      | some n =>
        simp only [hwk] at hst
        by_cases hfl : n.validLeaf = true
        · exact ⟨n, rfl, hfl⟩
        · rw [if_neg hfl] at hst
          simp at hst
    have hok : (update t c rest v).1 = true := (update_ok_iff rest t c v).mpr hterm
    refine ⟨(update t c rest v).2, by simp [UpdateP, hok], update_shape rest t c v, ?_, ?_⟩
    · rw [trieGet_eq_walkGet _ _ (by simp)]
      exact update_walkGet_self rest t c v hok
    · intro k' hne
      cases k' with
      | nil => rfl
      | cons d ds =>
        rw [trieGet_eq_walkGet _ _ (by simp), trieGet_eq_walkGet _ _ (by simp)]
        exact update_walkGet_frame rest t c v (d :: ds) hne

/-- C9 witness: updating the stored key `[0]` of `sampleT` to `9`. -/
theorem C9_update_witness :
    ((trieGet sampleT [0]).2 = true)
    ∧ (∃ t', UpdateP sampleT [0] 9 = some (none, t')
        ∧ shape t' = shape sampleT
        ∧ trieGet t' [0] = (some 9, true)
        ∧ (∀ k', k' ≠ [0] → trieGet t' k' = trieGet sampleT k')) :=
  ⟨rfl, C9_update_in_place sampleT [0] 9 rfl⟩

/-- C10: the loops of the five operations terminate.  The walk loops of
`add`, `get`, `update` and `remove` strictly shorten the remaining key, so one
unit of fuel per letter (plus one) completes them; the explicit-stack
depth-first loop of `search` completes within the weight of its starting
stack, which counts each node of the searched subtree at most twice — in
particular the stack empties after finitely many iterations on every finite
tree. -/
theorem C10_loops_terminate :
    (∀ (V : Type) (t : ITrie V) (c : Letter) (rest : Key) (v : V),
      ∃ n, addF n t c rest v = some (add t c rest v))
    ∧ (∀ (V : Type) (t : ITrie V) (c : Letter) (rest : Key),
      ∃ n, getF n t c rest = some (get t c rest))
    ∧ (∀ (V : Type) (t : ITrie V) (c : Letter) (rest : Key) (v : V),
      ∃ n, updateF n t c rest v = some (update t c rest v))
    ∧ (∀ (V : Type) (t : ITrie V) (c : Letter) (rest : Key),
      ∃ n, removeF n t c rest = some (remove t c rest))
    ∧ (∀ (V : Type) (st : List (Nat × ITrie V)) (res : List (Option V)),
      searchLoopF (stackW st) st res = some (searchLoop st res)) :=
  ⟨fun _ t c rest v => ⟨rest.length + 1, addF_complete rest _ t c v (by omega)⟩,
    fun _ t c rest => ⟨rest.length + 1, getF_complete rest _ t c (by omega)⟩,
    fun _ t c rest v => ⟨rest.length + 1, updateF_complete rest _ t c v (by omega)⟩,
    fun _ t c rest => ⟨rest.length + 1, removeF_complete rest _ t c (by omega)⟩,
    fun _ st res => searchLoopF_complete (stackW st) st res (Nat.le_refl _)⟩

end GoTrie

